import Mathlib

/-
Verification of the configuration type-checking and value-casting engine in
pkg/api/userconfig/validators.go.

Modelling notes:
* Go `interface{}` document nodes are modelled by the mutual inductive
  `Value` / `ValueList` / `ValueKVs`.  Go maps are association lists with a
  fixed entry order; Go's randomized map-iteration order means that when
  several entries could each produce an error, Go picks one
  nondeterministically, while this model deterministically picks the first in
  list order.  Go maps never contain duplicate keys; theorems that need this
  invariant take it as an explicit hypothesis.
* Go panics (out-of-range slice indexing) are modelled by `Option.none`
  around the result type of the function that can panic.
* Helper libraries (pkg/lib/cast, pkg/lib/slices, pkg/api/strings and the
  value-kind enumerations) are not part of the given sources; those
  definitions are modelled from the spec and marked as such.
-/

deriving instance DecidableEq for Except

namespace Cortex

mutual

inductive Value where
  | null
  | int (n : Int)
  | float (q : Rat)
  | str (s : String)
  | bool (b : Bool)
  | seq (xs : ValueList)
  | map (kvs : ValueKVs)
deriving DecidableEq

inductive ValueList where
  | nil
  | cons (hd : Value) (tl : ValueList)
deriving DecidableEq

inductive ValueKVs where
  | nil
  | cons (k : Value) (v : Value) (tl : ValueKVs)
deriving DecidableEq

end

/-- Length of a `ValueList` (Go `len` on a slice). -/
def ValueList.length : ValueList → Nat
  | .nil => 0
  | .cons _ tl => 1 + tl.length

/-- Length of a `ValueKVs` (Go `len` on a map). -/
def ValueKVs.length : ValueKVs → Nat
  | .nil => 0
  | .cons _ _ tl => 1 + tl.length

/-- Go map read `m[k]`: the first entry with an equal key (Go maps hold at
most one entry per key). -/
def mapGet : ValueKVs → Value → Option Value
  | .nil, _ => none
  | .cons k v tl, key => if k = key then some v else mapGet tl key

/-- Go map membership `_, ok := m[k]`. -/
def mapHasKey (kvs : ValueKVs) (k : Value) : Bool :=
  (mapGet kvs k).isSome

/-- Go map write `m[k] = v`: replaces the entry for `k` if present, appends
otherwise. -/
def mapInsert : ValueKVs → Value → Value → ValueKVs
  | .nil, k, v => .cons k v .nil
  | .cons k' v' tl, k, v =>
    if k' = k then .cons k v tl else .cons k' v' (mapInsert tl k v)

/-- The keys of a map, in entry order. -/
def ValueKVs.keys : ValueKVs → List Value
  | .nil => []
  | .cons k _ tl => k :: tl.keys

/-- The entries of a map as a Lean list. -/
def ValueKVs.toList : ValueKVs → List (Value × Value)
  | .nil => []
  | .cons k v tl => (k, v) :: tl.toList

/-- Folding Go map writes of every entry of the second map over the first. -/
def insertList (acc : ValueKVs) : ValueKVs → ValueKVs
  | .nil => acc
  | .cons k v tl => insertList (mapInsert acc k v) tl

/-- No two entries share a key (the invariant of every Go map). -/
def keysNodupB : ValueKVs → Bool
  | .nil => true
  | .cons k _ tl => !(mapHasKey tl k) && keysNodupB tl

/-- Go `strings.Split(s, "|")` on the character list. -/
def splitPipeChars : List Char → List (List Char)
  | [] => [[]]
  | c :: rest =>
    if c = '|' then [] :: splitPipeChars rest
    else
      match splitPipeChars rest with
      | [] => [[c]]
      | p :: ps => (c :: p) :: ps

/-- Go `strings.Split(s, "|")`: the code only ever splits on `"|"`. -/
def splitPipe (s : String) : List String :=
  (splitPipeChars s.data).map (fun cs => String.mk cs)

/-- Modelled from the spec: `slices.HasString` (pkg/lib/slices is not among
the given sources) - membership of a string in a string slice. -/
def hasString (strs : List String) (x : String) : Bool :=
  strs.contains x

/-- Modelled from the spec: the closed value-kind enumeration
(`ValueTypeStrings()`; the enumeration lives outside the given sources, the
spec's examples use the names INT, FLOAT, STRING, BOOL). -/
def ValueTypeStrings : List String :=
  ["INT", "FLOAT", "STRING", "BOOL"]

/-- Modelled from the spec: the closed column-kind enumeration
(`ColumnTypeStrings()`; the enumeration lives outside the given sources, the
spec describes a closed enumeration of pipeline column kinds). -/
def ColumnTypeStrings : List String :=
  ["INT_COLUMN", "FLOAT_COLUMN", "STRING_COLUMN",
   "INT_LIST_COLUMN", "FLOAT_LIST_COLUMN", "STRING_LIST_COLUMN"]

/-- validators.go `isValidColumnInputType`: every pipe-separated item must be
a member of the column-kind enumeration. -/
def isValidColumnInputType (columnTypeStr : String) : Bool :=
  (splitPipe columnTypeStr).all (fun item => hasString ColumnTypeStrings item)

/-- validators.go `isValidValueType`: every pipe-separated item must be a
member of the value-kind enumeration. -/
def isValidValueType (valueTypeStr : String) : Bool :=
  (splitPipe valueTypeStr).all (fun item => hasString ValueTypeStrings item)

/-- Modelled from the spec: the primitive-kind names carried by
`configreader.ErrorInvalidPrimitiveType` diagnostics (`s.PrimType...`). -/
inductive PrimType where
  | int
  | float
  | string
  | bool
  | map
  | list
deriving DecidableEq

/-- The error kinds raised by the engine (`Error...` constructors of the
package and of configreader).  Diagnostic payloads that no claim depends on
are omitted. -/
inductive ErrKind where
  | invalidValueDataType (t : Value)
  | typeListLength
  | genericTypeMapLength
  | argNameCannotBeType (name : String)
  | invalidPrimitiveType (v : Value) (validTypes : List PrimType)
  | mustBeDefined
  | mapMustBeDefined (keys : List String)
  | unsupportedKey (k : Value)
  | mustBeEmpty
  | unsupportedDataType
  | invalidColumnInputType
deriving DecidableEq

/-- Structured error: a base kind plus the location path accumulated by
`errors.Wrap` as the error returns through recursive frames (outermost
segment first). -/
structure Err where
  path : List String
  kind : ErrKind
deriving DecidableEq

/-- A fresh error with an empty location path. -/
def mkErr (k : ErrKind) : Err :=
  ⟨[], k⟩

/-- `errors.Wrap(err, seg)`: prepends one location-path segment. -/
def wrap (e : Err) (seg : String) : Err :=
  ⟨seg :: e.path, e.kind⟩

/-- Modelled from the spec: `s.UserStrStripped` (pkg/api/strings is not among
the given sources) - renders a value as a location-path segment, a string
without its quotes. -/
def userStrStripped : Value → String
  | .null => "<null>"
  | .int n => toString n
  | .float q => toString q
  | .str s => s
  | .bool b => toString b
  | .seq _ => "<list>"
  | .map _ => "<map>"

/-- Modelled from the spec: `s.UserStr` - like `userStrStripped` but strings
keep their quotes. -/
def userStr : Value → String
  | .str s => "\"" ++ s ++ "\""
  | v => userStrStripped v

/-- Modelled from the spec: `s.Index(i)` - the location-path segment for a
sequence index. -/
def indexStr (i : Nat) : String :=
  "index " ++ toString i

/-- All-strings view of a `ValueList` (the worker behind
`cast.InterfaceToStrSlice`). -/
def strSliceOf : ValueList → Option (List String)
  | .nil => some []
  | .cons (.str s) tl => (strSliceOf tl).map (fun ss => s :: ss)
  | .cons _ _ => none

/-- Modelled from the spec: `cast.InterfaceToStrSlice` (pkg/lib/cast is not
among the given sources) - a nil interface converts to a nil slice (the
source's `ValidateColumnInputValues` checks `columnNames == nil` after a
successful conversion, so nil converts successfully), a sequence converts
iff every element is a string. -/
def interfaceToStrSlice : Value → Option (List String)
  | .null => some []
  | .seq xs => strSliceOf xs
  | _ => none

/-- Modelled from the spec: `cast.InterfaceToInterfaceInterfaceMap` - a map
value converts to its entries; anything else (including nil) does not. -/
def interfaceToInterfaceInterfaceMap : Value → Option ValueKVs
  | .map kvs => some kvs
  | _ => none

/-- Modelled from the spec: `cast.InterfaceToInterfaceSlice` - a sequence
value converts to its elements; anything else does not. -/
def interfaceToInterfaceSlice : Value → Option ValueList
  | .seq xs => some xs
  | _ => none

/-- Decimal digit run to a natural number; fails on empty or non-digit
input. -/
def parseNatDigits (cs : List Char) : Option Nat :=
  if cs.isEmpty then none
  else
    cs.foldl
      (fun acc c =>
        match acc with
        | none => none
        | some n => if c.isDigit then some (n * 10 + (c.toNat - 48)) else none)
      (some 0)

/-- Optional minus sign followed by digits, as an integer. -/
def parseIntStr (s : String) : Option Int :=
  match s.data with
  | '-' :: rest => (parseNatDigits rest).map (fun n => -(n : Int))
  | cs => (parseNatDigits cs).map (fun n => (n : Int))

/-- Unsigned decimal numeral, with an optional fractional part, as a
rational. -/
def parsePosRat (s : String) : Option Rat :=
  match s.splitOn "." with
  | [w] => (parseNatDigits w.data).map (fun n => (n : Rat))
  | [w, f] =>
    match parseNatDigits w.data, parseNatDigits f.data with
    | some wn, some fn => some ((wn : Rat) + (fn : Rat) / ((10 : Rat) ^ f.length))
    | _, _ => none
  | _ => none

/-- Signed decimal numeral as a rational. -/
def parseRatStr (s : String) : Option Rat :=
  match s.data with
  | '-' :: rest => (parsePosRat (String.mk rest)).map (fun q => -q)
  | _ => parsePosRat s

/-- Modelled from the spec: `cast.InterfaceToInt64` - native integer
coercion.  The spec's examples (`CastValue("5", "INT|STRING")` is integer 5,
`CastValue(["1","2"], ["INT"])` is `[1, 2]`) require integer values and
integer-shaped strings to coerce; nothing else does. -/
def interfaceToInt64 : Value → Option Int
  | .int n => some n
  | .str s => parseIntStr s
  | _ => none

/-- Modelled from the spec: `cast.InterfaceToFloat64` - native float
coercion: float values, integer values (exactly representable) and
decimal-shaped strings coerce.  Go float64 payloads are modelled as
rationals; the engine never computes with them, it only carries them. -/
def interfaceToFloat64 : Value → Option Rat
  | .float q => some q
  | .int n => some ((n : Rat))
  | .str s => parseRatStr s
  | _ => none

/-- Generic-map-schema detection (validators.go lines 308-321 and 435-448):
a one-entry map whose key is a string naming a valid value type. -/
def genericMapSchema : ValueKVs → Option (String × Value)
  | .cons (.str s) gv .nil => if isValidValueType s then some (s, gv) else none
  | _ => none

/-- `foundGenericKey` of `ValidateValueType` (lines 203-211): some key is a
string naming a valid value type. -/
def hasGenericKey : ValueKVs → Bool
  | .nil => false
  | .cons (.str s) _ tl => isValidValueType s || hasGenericKey tl
  | .cons _ _ tl => hasGenericKey tl

theorem value_sizeOf_pos (v : Value) : 0 < sizeOf v := by
  cases v <;> simp

theorem valueList_sizeOf_pos (xs : ValueList) : 0 < sizeOf xs := by
  cases xs <;> simp

theorem valueKVs_sizeOf_pos (kvs : ValueKVs) : 0 < sizeOf kvs := by
  cases kvs <;> simp

theorem strSliceOf_eq_cons {xs : ValueList} {s : String} {ss : List String}
    (h : strSliceOf xs = some (s :: ss)) :
    ∃ tl, xs = ValueList.cons (.str s) tl ∧ strSliceOf tl = some ss := by
  match xs with
  | .nil => simp [strSliceOf] at h
  | .cons .null tl => simp [strSliceOf] at h
  | .cons (.int _) tl => simp [strSliceOf] at h
  | .cons (.float _) tl => simp [strSliceOf] at h
  | .cons (.bool _) tl => simp [strSliceOf] at h
  | .cons (.seq _) tl => simp [strSliceOf] at h
  | .cons (.map _) tl => simp [strSliceOf] at h
  | .cons (.str s0) tl =>
    simp only [strSliceOf] at h
    cases hm : strSliceOf tl with
    | none => rw [hm] at h; simp at h
    | some ss' =>
      rw [hm] at h
      simp only [Option.map_some', Option.some.injEq, List.cons.injEq] at h
      exact ⟨tl, by rw [h.1], by rw [hm, h.2]⟩

theorem interfaceToStrSlice_eq_cons {t : Value} {s : String} {ss : List String}
    (h : interfaceToStrSlice t = some (s :: ss)) :
    ∃ tl, t = Value.seq (ValueList.cons (.str s) tl) ∧ strSliceOf tl = some ss := by
  cases t <;> simp [interfaceToStrSlice] at h
  obtain ⟨tl, h1, h2⟩ := strSliceOf_eq_cons h
  exact ⟨tl, by simp [h1], h2⟩

theorem interfaceToInterfaceInterfaceMap_eq_some {t : Value} {kvs : ValueKVs}
    (h : interfaceToInterfaceInterfaceMap t = some kvs) : t = Value.map kvs := by
  cases t <;> simp [interfaceToInterfaceInterfaceMap] at h
  simp [h]

theorem genericMapSchema_eq_some {kvs : ValueKVs} {gk : String} {gv : Value}
    (h : genericMapSchema kvs = some (gk, gv)) :
    kvs = ValueKVs.cons (.str gk) gv .nil ∧ isValidValueType gk = true := by
  match kvs with
  | .nil => simp [genericMapSchema] at h
  | .cons (.str s) v .nil =>
    simp [genericMapSchema] at h
    obtain ⟨hv, h1, h2⟩ := h
    subst h1; subst h2
    exact ⟨rfl, hv⟩
  | .cons (.str s) v (.cons _ _ _) => simp [genericMapSchema] at h
  | .cons .null v tl => simp [genericMapSchema] at h
  | .cons (.int _) v tl => simp [genericMapSchema] at h
  | .cons (.float _) v tl => simp [genericMapSchema] at h
  | .cons (.bool _) v tl => simp [genericMapSchema] at h
  | .cons (.seq _) v tl => simp [genericMapSchema] at h
  | .cons (.map _) v tl => simp [genericMapSchema] at h

mutual

/-- validators.go `ValidateValueType` (lines 184-232): decodes a raw
type-expression.  A string must be a valid union; a string slice must have
exactly one valid element (a nil type-expression converts to a nil string
slice, hence the length error); a map is checked for the generic-key
ambiguity guard and its entries are validated recursively (keys only when a
generic key was found, and a failing key returns its error unwrapped while a
failing entry value is wrapped with the key's rendering); anything else is
an invalid value data type. -/
def ValidateValueType (valueType : Value) : Except Err Unit :=
  match valueType with
  | .str s =>
    if isValidValueType s then .ok ()
    else .error (mkErr (.invalidValueDataType (.str s)))
  | .null => .error (mkErr .typeListLength)
  | .seq xs =>
    match strSliceOf xs with
    | some [s0] =>
      if isValidValueType s0 then .ok ()
      else .error (mkErr (.invalidValueDataType (.str s0)))
    | some _ => .error (mkErr .typeListLength)
    | none => .error (mkErr (.invalidValueDataType (.seq xs)))
  | .map kvs =>
    let foundGenericKey := hasGenericKey kvs
    if foundGenericKey && (kvs.length != 1) then
      .error (mkErr .genericTypeMapLength)
    else
      validateMapEntries foundGenericKey kvs
  | _ => .error (mkErr (.invalidValueDataType valueType))
termination_by sizeOf valueType

/-- The entry loop of `ValidateValueType`'s map case (lines 216-227). -/
def validateMapEntries (generic : Bool) (kvs : ValueKVs) : Except Err Unit :=
  match kvs with
  | .nil => .ok ()
  | .cons k v tl =>
    match (if generic then ValidateValueType k else .ok ()) with
    | .error e => .error e
    | .ok _ =>
      match ValidateValueType v with
      | .error e => .error (wrap e (userStrStripped k))
      | .ok _ => validateMapEntries generic tl
termination_by sizeOf kvs

end

/-- The `PrimitiveUnion` arm of `CastValue` (lines 262-292): attempts the
kinds present in the union in the fixed order integer, float, string, bool;
each present kind's name is recorded before its attempt, so a final failure
carries exactly the accepted kind names. -/
def castPrimitive (value : Value) (validTypes : List String) : Except Err Value :=
  let namesInt : List PrimType :=
    if hasString validTypes ("INT") then [.int] else []
  let resInt : Option Value :=
    if hasString validTypes ("INT") then (interfaceToInt64 value).map Value.int else none
  match resInt with
  | some v => .ok v
  | none =>
    let namesFloat : List PrimType :=
      namesInt ++ (if hasString validTypes ("FLOAT") then [.float] else [])
    let resFloat : Option Value :=
      if hasString validTypes ("FLOAT") then (interfaceToFloat64 value).map Value.float
      else none
    match resFloat with
    | some v => .ok v
    | none =>
      let namesStr : List PrimType :=
        namesFloat ++ (if hasString validTypes ("STRING") then [.string] else [])
      let resStr : Option Value :=
        if hasString validTypes ("STRING") then
          match value with
          | .str s => some (.str s)
          | _ => none
        else none
      match resStr with
      | some v => .ok v
      | none =>
        let namesBool : List PrimType :=
          namesStr ++ (if hasString validTypes ("BOOL") then [.bool] else [])
        let resBool : Option Value :=
          if hasString validTypes ("BOOL") then
            match value with
            | .bool b => some (.bool b)
            | _ => none
          else none
        match resBool with
        | some v => .ok v
        | none => .error (mkErr (.invalidPrimitiveType value namesBool))

/-- First key of `valueMap` that is not a key of `schemaMap` (the
unsupported-key loops, lines 352-356 and 475-479). -/
def findUnsupportedKey : ValueKVs → ValueKVs → Option Value
  | .nil, _ => none
  | .cons k _ tl, schemaMap =>
    if mapHasKey schemaMap k then findUnsupportedKey tl schemaMap else some k

/-- validators.go `ValidateValue` (lines 244-246): the no-op value-level
validation hook, reserved for future semantic constraints. -/
def ValidateValue (_value : Value) : Except Err Unit :=
  .ok ()

/-- First components strictly related: a lexicographic pair decrease. -/
theorem prodLexOfLt {a b c d : Nat} (h : a < c) :
    Prod.Lex (fun x y => x < y) (fun x y : Nat => x < y) (a, b) (c, d) :=
  Prod.Lex.left _ _ h

/-- Equal first components, second strictly related: a lexicographic pair
decrease. -/
theorem prodLexOfEq {a b d : Nat} (h : b < d) :
    Prod.Lex (fun x y => x < y) (fun x y : Nat => x < y) (a, b) (a, d) :=
  Prod.Lex.right _ h

mutual

/-- validators.go `CastValue` (lines 248-378): validates the schema and the
value (a no-op hook), short-circuits a nil value, then casts by schema
shape: union string, map (empty, generic or fixed - Go's
`cast.InterfaceToInterfaceInterfaceMap` on the schema succeeds exactly on
map values, written here as a structural match) or string slice (Go's
`cast.InterfaceToStrSlice` on the schema succeeds exactly on all-string
sequences, written here as a structural match on the first element plus a
string-slice test of the rest; the empty-sequence schema arm is dead code
because `ValidateValueType` already rejected it, so Go's unguarded
`valueTypeStrs[0]` cannot panic here).  Any other schema shape is the
final invalid-value-data-type return of line 377. -/
def CastValue (value : Value) (valueType : Value) : Except Err Value :=
  match ValidateValueType valueType with
  | .error e => .error e
  | .ok _ =>
    match ValidateValue value with
    | .error e => .error e
    | .ok _ =>
    if value = .null then .ok .null
    else
      match valueType with
      | .str valueTypeStr => castPrimitive value (splitPipe valueTypeStr)
      | .map valueTypeMap =>
        match interfaceToInterfaceInterfaceMap value with
        | none => .error (mkErr (.invalidPrimitiveType value [.map]))
        | some valueMap =>
          if valueTypeMap.length = 0 then
            if valueMap.length = 0 then .ok (.map .nil)
            else .error (wrap (mkErr .mustBeEmpty) (userStr (.map valueMap)))
          else
            match valueTypeMap with
            | .cons (.str gk) gv .nil =>
              -- `isGenericMap` test of lines 308-321
              if isValidValueType gk then
                match castGenericEntries gk gv valueMap .nil with
                | .error e => .error e
                | .ok casted => .ok (.map casted)
              else
                match castFixedEntries (.cons (.str gk) gv .nil) valueMap .nil with
                | .error e => .error e
                | .ok casted =>
                  match findUnsupportedKey valueMap (.cons (.str gk) gv .nil) with
                  | some k => .error (mkErr (.unsupportedKey k))
                  | none => .ok (.map casted)
            | other =>
              match castFixedEntries other valueMap .nil with
              | .error e => .error e
              | .ok casted =>
                match findUnsupportedKey valueMap other with
                | some k => .error (mkErr (.unsupportedKey k))
                | none => .ok (.map casted)
      | .seq xs =>
        match xs with
        | .cons (.str valueTypeStr) xrest =>
          if (strSliceOf xrest).isSome then
            match interfaceToInterfaceSlice value with
            | none => .error (mkErr (.invalidPrimitiveType value [.list]))
            | some valueSlice =>
              match castListElems valueTypeStr valueSlice 0 with
              | .error e => .error e
              | .ok casted => .ok (.seq casted)
          else
            -- not a string slice: the final return of line 377
            .error (mkErr (.invalidValueDataType (.seq xs)))
        | .cons hd xrest =>
          -- not a string slice: the final return of line 377
          .error (mkErr (.invalidValueDataType (.seq (.cons hd xrest))))
        | .nil =>
          -- dead code: `ValidateValueType` already rejected the empty sequence
          .error (mkErr (.invalidValueDataType (.seq .nil)))
      | vt =>
        -- nil, int, float and bool schemas: nil is dead code (validation
        -- rejected it); the rest reach the final return of line 377
        .error (mkErr (.invalidValueDataType vt))
termination_by (sizeOf valueType, 0)
decreasing_by
  all_goals simp_wf
  all_goals
    (apply prodLexOfLt
     try simp only [Value.str.sizeOf_spec, Value.seq.sizeOf_spec, Value.map.sizeOf_spec,
       ValueList.cons.sizeOf_spec, ValueList.nil.sizeOf_spec,
       ValueKVs.cons.sizeOf_spec, ValueKVs.nil.sizeOf_spec]
     omega)

/-- The generic-map loop of `CastValue` (lines 323-337): each entry's key is
cast against the key kind (a failure propagates unwrapped) and its value
against the value schema (a failure is wrapped with the key's rendering);
results accumulate by map insertion. -/
def castGenericEntries (gk : String) (gv : Value) (entries : ValueKVs)
    (acc : ValueKVs) : Except Err ValueKVs :=
  match entries with
  | .nil => .ok acc
  | .cons k v tl =>
    match CastValue k (.str gk) with
    | .error e => .error e
    | .ok kc =>
      match CastValue v gv with
      | .error e => .error (wrap e (userStrStripped k))
      | .ok vc => castGenericEntries gk gv tl (mapInsert acc kc vc)
termination_by (1 + sizeOf gk + sizeOf gv, sizeOf entries)
decreasing_by
  all_goals simp_wf
  all_goals
    first
      | (apply prodLexOfEq; omega)
      | (apply prodLexOfLt
         have h1 := value_sizeOf_pos gv
         omega)

/-- The fixed-map loop of `CastValue` (lines 340-351): every declared field
must be present (else must-be-defined named by the field) and casts
recursively (a failure wrapped with the field name); results accumulate by
map insertion under the original key. -/
def castFixedEntries (schemaEntries : ValueKVs) (valueMap : ValueKVs)
    (acc : ValueKVs) : Except Err ValueKVs :=
  match schemaEntries with
  | .nil => .ok acc
  | .cons k t tl =>
    match mapGet valueMap k with
    | none => .error (wrap (mkErr .mustBeDefined) (userStrStripped k))
    | some v =>
      match CastValue v t with
      | .error e => .error (wrap e (userStrStripped k))
      | .ok vc => castFixedEntries tl valueMap (mapInsert acc k vc)
termination_by (sizeOf schemaEntries, 0)
decreasing_by
  all_goals simp_wf
  all_goals (apply prodLexOfLt; omega)

/-- The list loop of `CastValue` (lines 366-373): each element is cast
against the element type; a failure is wrapped with the element's index. -/
def castListElems (elemTypeStr : String) (xs : ValueList) (i : Nat) :
    Except Err ValueList :=
  match xs with
  | .nil => .ok .nil
  | .cons x tl =>
    match CastValue x (.str elemTypeStr) with
    | .error e => .error (wrap e (indexStr i))
    | .ok xc =>
      match castListElems elemTypeStr tl (i + 1) with
      | .error e => .error e
      | .ok rest => .ok (.cons xc rest)
termination_by (1 + sizeOf elemTypeStr, sizeOf xs)
decreasing_by
  all_goals simp_wf
  all_goals (apply prodLexOfEq; omega)

end

mutual

/-- validators.go `CheckValueRuntimeTypesMatch` (lines 414-498): compares a
runtime type against a schema type, without validating either first.  A
union-string schema requires a string runtime whose pipe-split kinds are all
members of the schema's kinds; a map schema (Go's
`cast.InterfaceToInterfaceInterfaceMap` succeeds exactly on map values,
written here as a structural match) requires a map runtime matched
generically or field by field; a string-slice schema reads element 0 of both
string slices unguarded - `Option.none` models the Go panic on an empty
slice - and checks the kinds of runtime element 0 against schema element 0.
A nil schema is also `none`: the modelled `cast.InterfaceToStrSlice`
converts nil to an empty slice, which Go then indexes unguarded. -/
def CheckValueRuntimeTypesMatch (runtimeType schemaType : Value) :
    Option (Except Err Unit) :=
  match schemaType with
  | .str schemaTypeStr =>
    let validTypes := splitPipe schemaTypeStr
    match runtimeType with
    | .str runtimeTypeStr =>
      if (splitPipe runtimeTypeStr).all (fun o => hasString validTypes o) then
        some (.ok ())
      else some (.error (mkErr .unsupportedDataType))
    | _ => some (.error (mkErr .unsupportedDataType))
  | .map schemaTypeMap =>
    match interfaceToInterfaceInterfaceMap runtimeType with
    | none => some (.error (mkErr .unsupportedDataType))
    | some runtimeTypeMap =>
      match schemaTypeMap with
      | .cons (.str gk) gv .nil =>
        -- `isGenericMap` test of lines 435-448
        if isValidValueType gk then checkGenericEntries gk gv runtimeTypeMap
        else
          match checkFixedEntries (.cons (.str gk) gv .nil) runtimeTypeMap with
          | none => none
          | some (.error e) => some (.error e)
          | some (.ok _) =>
            match findUnsupportedKey runtimeTypeMap (.cons (.str gk) gv .nil) with
            | some k => some (.error (mkErr (.unsupportedKey k)))
            | none => some (.ok ())
      | other =>
        match checkFixedEntries other runtimeTypeMap with
        | none => none
        | some (.error e) => some (.error e)
        | some (.ok _) =>
          match findUnsupportedKey runtimeTypeMap other with
          | some k => some (.error (mkErr (.unsupportedKey k)))
          | none => some (.ok ())
  | .seq xs =>
    match xs with
    | .cons (.str s0) xrest =>
      if (strSliceOf xrest).isSome then
        let validTypes := splitPipe s0
        match interfaceToStrSlice runtimeType with
        | none => some (.error (mkErr .unsupportedDataType))
        | some [] => none
        | some (r0 :: _) =>
          if (splitPipe r0).all (fun o => hasString validTypes o) then
            some (.ok ())
          else some (.error (mkErr .unsupportedDataType))
      else
        -- not a string slice: the final return of line 497
        some (.error (mkErr (.invalidValueDataType (.seq xs))))
    | .cons hd xrest =>
      -- not a string slice: the final return of line 497
      some (.error (mkErr (.invalidValueDataType (.seq (.cons hd xrest)))))
    | .nil =>
      -- `schemaTypeStrs[0]` on the empty slice: Go panics
      none
  | .null =>
    -- the modelled `cast.InterfaceToStrSlice` converts nil to an empty
    -- slice and Go indexes `schemaTypeStrs[0]` unguarded: a panic
    none
  | st =>
    -- int, float and bool schemas reach the final return of line 497
    some (.error (mkErr (.invalidValueDataType st)))
termination_by (sizeOf schemaType, 0)
decreasing_by
  all_goals simp_wf
  all_goals
    (apply prodLexOfLt
     try simp only [Value.str.sizeOf_spec, Value.seq.sizeOf_spec, Value.map.sizeOf_spec,
       ValueList.cons.sizeOf_spec, ValueList.nil.sizeOf_spec,
       ValueKVs.cons.sizeOf_spec, ValueKVs.nil.sizeOf_spec]
     omega)

/-- The generic-map loop of `CheckValueRuntimeTypesMatch` (lines 450-462):
each runtime entry's key type is matched against the generic key kind (a
failure propagates unwrapped) and its value type against the generic value
schema (a failure is wrapped with the key's rendering). -/
def checkGenericEntries (gk : String) (gv : Value) (entries : ValueKVs) :
    Option (Except Err Unit) :=
  match entries with
  | .nil => some (.ok ())
  | .cons k v tl =>
    match CheckValueRuntimeTypesMatch k (.str gk) with
    | none => none
    | some (.error e) => some (.error e)
    | some (.ok _) =>
      match CheckValueRuntimeTypesMatch v gv with
      | none => none
      | some (.error e) => some (.error (wrap e (userStrStripped k)))
      | some (.ok _) => checkGenericEntries gk gv tl
termination_by (1 + sizeOf gk + sizeOf gv, sizeOf entries)
decreasing_by
  all_goals simp_wf
  all_goals
    first
      | (apply prodLexOfEq; omega)
      | (apply prodLexOfLt
         have h1 := value_sizeOf_pos gv
         omega)

/-- The fixed-map loop of `CheckValueRuntimeTypesMatch` (lines 465-474):
every schema field must be present in the runtime map (else must-be-defined
named by the field) and is matched recursively (a failure wrapped with the
field name). -/
def checkFixedEntries (schemaEntries : ValueKVs) (runtimeMap : ValueKVs) :
    Option (Except Err Unit) :=
  match schemaEntries with
  | .nil => some (.ok ())
  | .cons k t tl =>
    match mapGet runtimeMap k with
    | none => some (.error (wrap (mkErr .mustBeDefined) (userStrStripped k)))
    | some rv =>
      match CheckValueRuntimeTypesMatch rv t with
      | none => none
      | some (.error e) => some (.error (wrap e (userStrStripped k)))
      | some (.ok _) => checkFixedEntries tl runtimeMap
termination_by (sizeOf schemaEntries, 0)
decreasing_by
  all_goals simp_wf
  all_goals (apply prodLexOfLt; omega)

end

/-- validators.go `ValidateArgTypes` (lines 171-182): rejects an argument
name that is itself a valid value type, then validates each declared type,
wrapping failures with the argument name. -/
def ValidateArgTypes (argTypes : List (String × Value)) : Except Err Unit :=
  match argTypes with
  | [] => .ok ()
  | (argName, valueType) :: rest =>
    if isValidValueType argName then
      .error (mkErr (.argNameCannotBeType argName))
    else
      match ValidateValueType valueType with
      | .error e => .error (wrap e argName)
      | .ok _ => ValidateArgTypes rest

/-- validators.go `ValidateArgValues` (lines 234-242): runs the no-op value
hook on each argument value, wrapping failures with the argument name. -/
def ValidateArgValues (argValues : List (String × Value)) : Except Err Unit :=
  match argValues with
  | [] => .ok ()
  | (argName, value) :: rest =>
    match ValidateValue value with
    | .error e => .error (wrap e argName)
    | .ok _ => ValidateArgValues rest

/-- Go map read on a string-keyed map. -/
def lookupStr : List (String × Value) → String → Option Value
  | [], _ => none
  | (n, v) :: tl, name => if n = name then some v else lookupStr tl name

/-- First runtime argument name with no schema entry (lines 405-409). -/
def findExtraArg : List (String × Value) → List (String × Value) → Option String
  | [], _ => none
  | (n, _) :: tl, schema =>
    if (lookupStr schema n).isSome then findExtraArg tl schema else some n

/-- The per-argument loop of `CheckArgRuntimeTypesMatch` (lines 390-403):
for each schema argument, an empty runtime map is a map-must-be-defined
error carrying the schema keys, a missing argument is must-be-defined
wrapped with the name, and otherwise the runtime type is matched (a failure
wrapped with the name). -/
def checkArgEntries (argRuntimeTypes : List (String × Value))
    (allSchemaKeys : List String) :
    List (String × Value) → Option (Except Err Unit)
  | [] => some (.ok ())
  | (argName, argSchemaType) :: rest =>
    if argRuntimeTypes.length = 0 then
      some (.error (mkErr (.mapMustBeDefined allSchemaKeys)))
    else
      match lookupStr argRuntimeTypes argName with
      | none => some (.error (wrap (mkErr .mustBeDefined) argName))
      | some argRuntimeType =>
        match CheckValueRuntimeTypesMatch argRuntimeType argSchemaType with
        | none => none
        | some (.error e) => some (.error (wrap e argName))
        | some (.ok _) => checkArgEntries argRuntimeTypes allSchemaKeys rest

/-- validators.go `CheckArgRuntimeTypesMatch` (lines 380-412): validates the
schema argument types, then the runtime argument types, then matches each
schema argument and finally rejects runtime arguments with no schema entry. -/
def CheckArgRuntimeTypesMatch (argRuntimeTypes argSchemaTypes : List (String × Value)) :
    Option (Except Err Unit) :=
  match ValidateArgTypes argSchemaTypes with
  | .error e => some (.error e)
  | .ok _ =>
    match ValidateArgTypes argRuntimeTypes with
    | .error e => some (.error e)
    | .ok _ =>
      match checkArgEntries argRuntimeTypes (argSchemaTypes.map (fun p => p.1))
          argSchemaTypes with
      | none => none
      | some (.error e) => some (.error e)
      | some (.ok _) =>
        match findExtraArg argRuntimeTypes argSchemaTypes with
        | some n => some (.error (mkErr (.unsupportedKey (.str n))))
        | none => some (.ok ())

/-- validators.go `ValidateColumnInputTypes` (lines 48-71): each declared
column input type must be a valid column-union string, or a string slice of
exactly one valid column-union string; anything else is an invalid column
input type, and every failure is wrapped with the column input name. -/
def ValidateColumnInputTypes (columnTypes : List (String × Value)) : Except Err Unit :=
  match columnTypes with
  | [] => .ok ()
  | (columnInputName, columnType) :: rest =>
    match columnType with
    | .str columnTypeStr =>
      if isValidColumnInputType columnTypeStr then ValidateColumnInputTypes rest
      else .error (wrap (mkErr .invalidColumnInputType) columnInputName)
    | ct =>
      match interfaceToStrSlice ct with
      | some columnTypeStrs =>
        match columnTypeStrs with
        | [s0] =>
          if isValidColumnInputType s0 then ValidateColumnInputTypes rest
          else .error (wrap (mkErr .invalidColumnInputType) columnInputName)
        | _ => .error (wrap (mkErr .typeListLength) columnInputName)
      | none => .error (wrap (mkErr .invalidColumnInputType) columnInputName)

/-- Written from the spec's words (for claim C1): the accepted primitive
kind names of a union, listed in the fixed priority order integer, float,
string, bool, restricted to the kinds present in the union. -/
def specAcceptedNames (kinds : List String) : List PrimType :=
  (if ("INT") ∈ kinds then [PrimType.int] else []) ++
    ((if ("FLOAT") ∈ kinds then [PrimType.float] else []) ++
      ((if ("STRING") ∈ kinds then [PrimType.string] else []) ++
        (if ("BOOL") ∈ kinds then [PrimType.bool] else [])))

/-- Written from the spec's words (for claim C1): union casting attempts the
kinds in the fixed priority order integer, float, string, bool - depending
only on membership in the union, never on the order kinds appear - and the
first kind present in the union whose native coercion succeeds wins; if none
accepts, the result is the invalid-primitive-type error carrying the
accepted kind names. -/
def specUnionCast (value : Value) (kinds : List String) : Except Err Value :=
  match (if ("INT") ∈ kinds then interfaceToInt64 value else none) with
  | some n => .ok (.int n)
  | none =>
    match (if ("FLOAT") ∈ kinds then interfaceToFloat64 value else none) with
    | some q => .ok (.float q)
    | none =>
      match
        (if ("STRING") ∈ kinds then
          (match value with | .str s => some s | _ => none)
        else none) with
      | some s => .ok (.str s)
      | none =>
        match
          (if ("BOOL") ∈ kinds then
            (match value with | .bool b => some b | _ => none)
          else none) with
        | some b => .ok (.bool b)
        | none => .error (mkErr (.invalidPrimitiveType value (specAcceptedNames kinds)))

/-! ## Claim theorems -/

/-- `slices.HasString` is list membership. -/
theorem hasString_iff (l : List String) (x : String) :
    hasString l x = true ↔ x ∈ l :=
  List.elem_iff

/-- The union arm of `CastValue` computes exactly the spec's priority cast. -/
theorem castPrimitive_eq_spec (value : Value) (kinds : List String) :
    castPrimitive value kinds = specUnionCast value kinds := by
  by_cases hI : ("INT") ∈ kinds <;> by_cases hF : ("FLOAT") ∈ kinds <;>
    by_cases hS : ("STRING") ∈ kinds <;> by_cases hB : ("BOOL") ∈ kinds <;>
      (cases hi : interfaceToInt64 value <;>
       cases hf : interfaceToFloat64 value <;>
       cases value <;>
       simp_all [castPrimitive, specUnionCast, specAcceptedNames, hasString_iff])

/-- C2: for every runtime type and every union schema string,
`CheckValueRuntimeTypesMatch` succeeds exactly when the runtime type is a
string whose pipe-split kinds are all members of the schema's pipe-split
kinds (subset containment); otherwise it fails with the
unsupported-data-type error.  In particular `INT` against `INT|FLOAT`
succeeds and `INT|STRING` against `INT` fails. -/
theorem check_union_subset_characterization :
    (∀ (runtimeType : Value) (schemaTypeStr : String),
      CheckValueRuntimeTypesMatch runtimeType (.str schemaTypeStr) = some (.ok ()) ↔
        ∃ rs, runtimeType = Value.str rs ∧
          ∀ k ∈ splitPipe rs, k ∈ splitPipe schemaTypeStr) ∧
    (∀ (runtimeType : Value) (schemaTypeStr : String),
      CheckValueRuntimeTypesMatch runtimeType (.str schemaTypeStr) ≠ some (.ok ()) →
        CheckValueRuntimeTypesMatch runtimeType (.str schemaTypeStr) =
          some (.error (mkErr .unsupportedDataType))) ∧
    CheckValueRuntimeTypesMatch (.str ("INT")) (.str ("INT|FLOAT")) = some (.ok ()) ∧
    CheckValueRuntimeTypesMatch (.str ("INT|STRING")) (.str ("INT")) =
      some (.error (mkErr .unsupportedDataType)) := by
  refine ⟨?_, ?_, ?_, ?_⟩
  · intro r u
    cases r <;>
      simp [CheckValueRuntimeTypesMatch, hasString, List.all_eq_true, List.elem_iff]
  · intro r u h
    cases r <;>
      simp_all [CheckValueRuntimeTypesMatch, hasString]
  · simp only [CheckValueRuntimeTypesMatch]
    decide
  · simp only [CheckValueRuntimeTypesMatch]
    decide

/-- C2 witness: the subset-containment characterization applied at the
concrete pair `FLOAT` against `FLOAT|BOOL`. -/
theorem check_union_subset_characterization_witness :
    CheckValueRuntimeTypesMatch (.str ("FLOAT")) (.str ("FLOAT|BOOL")) = some (.ok ()) :=
  (check_union_subset_characterization.1 (.str ("FLOAT")) ("FLOAT|BOOL")).mpr
    ⟨("FLOAT"), rfl, by decide⟩

/-- C4 counterexample: with the invalid schema string `BOGUS`, casting a nil
value returns the schema-validation error, not a nil success - schema
validation runs before the nil short-circuit, so the claim's "for every
schema" fails on schemas that do not validate. -/
theorem cast_null_invalid_schema_counterexample :
    CastValue .null (.str ("BOGUS")) =
      .error (mkErr (.invalidValueDataType (.str ("BOGUS")))) := by
  simp only [CastValue, ValidateValueType]
  decide

/-- C4 (amended): for every schema that passes validation, casting a nil
value returns nil, before any structural check of the value against the
schema. -/
theorem cast_null_returns_null (valueType : Value)
    (h : ValidateValueType valueType = .ok ()) :
    CastValue .null valueType = .ok .null := by
  cases valueType with
  | null => exact absurd h (by simp [ValidateValueType])
  | int n => exact absurd h (by simp [ValidateValueType])
  | float q => exact absurd h (by simp [ValidateValueType])
  | bool b => exact absurd h (by simp [ValidateValueType])
  | str s => simp [CastValue, ValidateValue, h]
  | map kvs => simp [CastValue, ValidateValue, h]
  | seq xs =>
    cases xs with
    | nil => exact absurd h (by simp [ValidateValueType, strSliceOf])
    | cons hd tl =>
      cases hd with
      | str s => simp [CastValue, ValidateValue, h]
      | null => exact absurd h (by simp [ValidateValueType, strSliceOf])
      | int n => exact absurd h (by simp [ValidateValueType, strSliceOf])
      | float q => exact absurd h (by simp [ValidateValueType, strSliceOf])
      | bool b => exact absurd h (by simp [ValidateValueType, strSliceOf])
      | seq ys => exact absurd h (by simp [ValidateValueType, strSliceOf])
      | map m => exact absurd h (by simp [ValidateValueType, strSliceOf])

/-- C4 witness: the amended nil rule applied at the concrete schema
`INT|FLOAT`. -/
theorem cast_null_returns_null_witness :
    CastValue .null (.str ("INT|FLOAT")) = .ok .null :=
  cast_null_returns_null (.str ("INT|FLOAT"))
    (by simp only [ValidateValueType]; decide)

/-- C5 counterexample: a runtime type-expression that is a two-element
string slice is accepted against a singleton list schema - only element 0 is
consulted and no length check rejects the extra element, contrary to the
claim that any non-singleton sequence is rejected. -/
theorem check_list_runtime_pair_accepted_counterexample :
    CheckValueRuntimeTypesMatch
      (.seq (.cons (.str ("INT")) (.cons (.str ("STRING")) .nil)))
      (.seq (.cons (.str ("INT")) .nil)) = some (.ok ()) := by
  simp only [CheckValueRuntimeTypesMatch]
  decide

/-- C5 (amended): against a list schema, the runtime must convert to a
string slice (else unsupported-data-type); only its element 0 is matched -
by the union subset rule - against the schema's element 0, any further
runtime elements being ignored; and a runtime that converts to an empty
string slice makes the unguarded index panic (`none`) instead of being
rejected. -/
theorem check_list_schema_first_element_only :
    (∀ (s0 r0 : String),
      CheckValueRuntimeTypesMatch (.seq (.cons (.str r0) .nil))
          (.seq (.cons (.str s0) .nil)) = some (.ok ()) ↔
        ∀ k ∈ splitPipe r0, k ∈ splitPipe s0) ∧
    (∀ (s0 r0 : String) (xrest rrest : ValueList),
      (strSliceOf xrest).isSome = true → (strSliceOf rrest).isSome = true →
      CheckValueRuntimeTypesMatch (.seq (.cons (.str r0) rrest))
          (.seq (.cons (.str s0) xrest)) =
        CheckValueRuntimeTypesMatch (.seq (.cons (.str r0) .nil))
          (.seq (.cons (.str s0) .nil))) ∧
    (∀ (s0 : String) (xrest : ValueList) (r : Value),
      (strSliceOf xrest).isSome = true → interfaceToStrSlice r = none →
      CheckValueRuntimeTypesMatch r (.seq (.cons (.str s0) xrest)) =
        some (.error (mkErr .unsupportedDataType))) ∧
    (∀ (s0 : String) (xrest : ValueList),
      (strSliceOf xrest).isSome = true →
      CheckValueRuntimeTypesMatch (.seq .nil) (.seq (.cons (.str s0) xrest)) =
        none) := by
  refine ⟨?_, ?_, ?_, ?_⟩
  · intro s0 r0
    simp [CheckValueRuntimeTypesMatch, strSliceOf, interfaceToStrSlice, hasString,
      List.all_eq_true, List.elem_iff]
  · intro s0 r0 xrest rrest hx hr
    obtain ⟨xs, hxs⟩ := Option.isSome_iff_exists.mp hx
    obtain ⟨rs, hrs⟩ := Option.isSome_iff_exists.mp hr
    simp [CheckValueRuntimeTypesMatch, strSliceOf, interfaceToStrSlice, hxs, hrs]
  · intro s0 xrest r hx hr
    obtain ⟨xs, hxs⟩ := Option.isSome_iff_exists.mp hx
    cases r <;> simp_all [CheckValueRuntimeTypesMatch, interfaceToStrSlice, hxs]
  · intro s0 xrest hx
    obtain ⟨xs, hxs⟩ := Option.isSome_iff_exists.mp hx
    simp [CheckValueRuntimeTypesMatch, interfaceToStrSlice, strSliceOf, hxs]

/-- C5 witness: the first-element-only rule applied at concrete inputs - the
runtime pair `["STRING", "INT"]` against the schema `["STRING|INT"]` matches
exactly like the singleton runtime `["STRING"]`. -/
theorem check_list_schema_first_element_only_witness :
    CheckValueRuntimeTypesMatch
        (.seq (.cons (.str ("STRING")) (.cons (.str ("INT")) .nil)))
        (.seq (.cons (.str ("STRING|INT")) .nil)) =
      CheckValueRuntimeTypesMatch (.seq (.cons (.str ("STRING")) .nil))
        (.seq (.cons (.str ("STRING|INT")) .nil)) :=
  check_list_schema_first_element_only.2.1 ("STRING|INT") ("STRING")
    (.nil) (.cons (.str ("INT")) .nil) (by decide) (by decide)

/-- C1: for every non-nil value and valid union schema string, `CastValue`
equals the spec's priority cast, which attempts integer, then float, then
string, then bool - depending only on which kinds are members of the union,
independent of their order - and which fails with the invalid-primitive-type
error carrying the accepted kind names when no present kind's coercion
succeeds; in particular `"5"` against `INT|STRING` and against `STRING|INT`
casts to integer 5. -/
theorem cast_union_priority :
    (∀ (value : Value) (u : String), isValidValueType u = true →
      value ≠ .null →
      CastValue value (.str u) = specUnionCast value (splitPipe u)) ∧
    (∀ (value : Value) (kinds kinds' : List String),
      (∀ k, k ∈ kinds ↔ k ∈ kinds') →
      specUnionCast value kinds = specUnionCast value kinds') ∧
    CastValue (.str ("5")) (.str ("INT|STRING")) = .ok (.int 5) ∧
    CastValue (.str ("5")) (.str ("STRING|INT")) = .ok (.int 5) := by
  refine ⟨?_, ?_, ?_, ?_⟩
  · intro value u hu hv
    rw [← castPrimitive_eq_spec]
    simp [CastValue, ValidateValueType, ValidateValue, hu, hv]
  · intro value kinds kinds' hiff
    simp only [specUnionCast, specAcceptedNames, hiff ("INT"), hiff ("FLOAT"),
      hiff ("STRING"), hiff ("BOOL")]
  · simp only [CastValue, ValidateValueType, castPrimitive]
    decide
  · simp only [CastValue, ValidateValueType, castPrimitive]
    decide

/-- C1 witness: the priority-cast equation applied at the concrete pair
`true` against `BOOL|INT`. -/
theorem cast_union_priority_witness :
    CastValue (.bool true) (.str ("BOOL|INT")) =
      specUnionCast (.bool true) (splitPipe ("BOOL|INT")) :=
  cast_union_priority.1 (.bool true) ("BOOL|INT") (by decide) (by decide)

/-- C8 counterexample: a list-shaped declared column type - a singleton
sequence holding one valid column-union string - is accepted by
`ValidateColumnInputTypes`, contrary to the claim that no list-shaped type
expression is accepted. -/
theorem validate_column_input_types_list_accepted_counterexample :
    ValidateColumnInputTypes
      [(("col"), .seq (.cons (.str ("INT_COLUMN")) .nil))] = .ok () := by
  simp only [ValidateColumnInputTypes, interfaceToStrSlice, strSliceOf]
  decide

/-- C8 (amended): `ValidateColumnInputTypes` accepts exactly the declared
types that are either a pipe-union string over the column-kind enumeration
or a sequence converting to exactly one such string; map-shaped and
other-length type expressions are rejected. -/
theorem validate_column_input_types_characterization
    (columnTypes : List (String × Value)) :
    ValidateColumnInputTypes columnTypes = .ok () ↔
      ∀ p ∈ columnTypes,
        (∃ s, p.2 = Value.str s ∧ isValidColumnInputType s = true) ∨
        (∃ s, interfaceToStrSlice p.2 = some [s] ∧ isValidColumnInputType s = true) := by
  induction columnTypes with
  | nil => simp [ValidateColumnInputTypes]
  | cons hd tl ih =>
    obtain ⟨n, t⟩ := hd
    cases t with
    | str s =>
      by_cases hv : isValidColumnInputType s = true <;>
        simp [ValidateColumnInputTypes, hv, ih, interfaceToStrSlice]
    | seq xs =>
      cases hss : strSliceOf xs with
      | none => simp [ValidateColumnInputTypes, hss, interfaceToStrSlice]
      | some ss =>
        match ss with
        | [] => simp [ValidateColumnInputTypes, hss, interfaceToStrSlice]
        | [s0] =>
          by_cases hv : isValidColumnInputType s0 = true <;>
            simp [ValidateColumnInputTypes, hss, hv, ih, interfaceToStrSlice]
        | s0 :: s1 :: srest =>
          simp [ValidateColumnInputTypes, hss, interfaceToStrSlice]
    | null => simp [ValidateColumnInputTypes, interfaceToStrSlice]
    | int m => simp [ValidateColumnInputTypes, interfaceToStrSlice]
    | float q => simp [ValidateColumnInputTypes, interfaceToStrSlice]
    | bool b => simp [ValidateColumnInputTypes, interfaceToStrSlice]
    | map kvs => simp [ValidateColumnInputTypes, interfaceToStrSlice]

/-- C8 witness: the characterization applied at a concrete two-column
declaration mixing a union string and a singleton sequence. -/
theorem validate_column_input_types_characterization_witness :
    ValidateColumnInputTypes
      [(("a"), .str ("INT_COLUMN|FLOAT_COLUMN")),
       (("b"), .seq (.cons (.str ("STRING_COLUMN")) .nil))] = .ok () :=
  (validate_column_input_types_characterization _).mpr (by
    intro p hp
    simp only [List.mem_cons, List.not_mem_nil, or_false] at hp
    rcases hp with rfl | rfl
    · exact Or.inl ⟨("INT_COLUMN|FLOAT_COLUMN"), rfl, by decide⟩
    · exact Or.inr ⟨("STRING_COLUMN"), by decide, by decide⟩)

/-- C6 counterexample: a cast failure on a generic-map entry's key is
returned with an empty location path - no segment identifies the offending
entry and the generic-map recursive frame adds nothing - contrary to the
claim that every error is wrapped with a path segment in each recursive
frame, whether the key cast or the value cast fails. -/
theorem cast_generic_key_error_unwrapped_counterexample :
    CastValue (.map (.cons (.bool true) (.int 1) .nil))
        (.map (.cons (.str ("INT")) (.str ("INT")) .nil)) =
      .error ⟨[], .invalidPrimitiveType (.bool true) [.int]⟩ := by
  simp [CastValue, ValidateValueType, validateMapEntries, hasGenericKey,
    ValueKVs.length, castGenericEntries, castPrimitive, ValidateValue,
    interfaceToInterfaceInterfaceMap]
  all_goals decide

/-- C6 (amended): each recursive frame of `CastValue` wraps a failing
recursive cast with its location segment - the element index for list
elements, the field name for fixed-map fields, the entry key for
generic-map entry values - except a generic-map entry whose key cast
fails, which propagates its error unchanged, with no segment identifying
the entry. -/
theorem cast_error_path_wrapping :
    (∀ (elemTypeStr : String) (x : Value) (rest : ValueList) (i : Nat) (e : Err),
      CastValue x (.str elemTypeStr) = .error e →
      castListElems elemTypeStr (.cons x rest) i = .error (wrap e (indexStr i))) ∧
    (∀ (k tv : Value) (tl valueMap acc : ValueKVs) (v e),
      mapGet valueMap k = some v → CastValue v tv = .error e →
      castFixedEntries (.cons k tv tl) valueMap acc =
        .error (wrap e (userStrStripped k))) ∧
    (∀ (gk : String) (gv k v : Value) (tl acc : ValueKVs) (kc e),
      CastValue k (.str gk) = .ok kc → CastValue v gv = .error e →
      castGenericEntries gk gv (.cons k v tl) acc =
        .error (wrap e (userStrStripped k))) ∧
    (∀ (gk : String) (gv k v : Value) (tl acc : ValueKVs) (e : Err),
      CastValue k (.str gk) = .error e →
      castGenericEntries gk gv (.cons k v tl) acc = .error e) ∧
    (∀ (gk : String) (gv k v : Value) (tl : ValueKVs) (e : Err),
      ValidateValueType (.map (.cons (.str gk) gv .nil)) = .ok () →
      isValidValueType gk = true →
      CastValue k (.str gk) = .error e →
      CastValue (.map (.cons k v tl)) (.map (.cons (.str gk) gv .nil)) =
        .error e) := by
  refine ⟨?_, ?_, ?_, ?_, ?_⟩
  · intro elemTypeStr x rest i e h
    simp [castListElems, h]
  · intro k tv tl valueMap acc v e hget h
    simp [castFixedEntries, hget, h]
  · intro gk gv k v tl acc kc e hk h
    simp [castGenericEntries, hk, h]
  · intro gk gv k v tl acc e h
    simp [castGenericEntries, h]
  · intro gk gv k v tl e hval hgk h
    simp [CastValue, hval, ValidateValue, ValueKVs.length, hgk,
      interfaceToInterfaceInterfaceMap, castGenericEntries, h]

/-- C6 witness: the generic-map key-failure rule applied at a concrete
map - the boolean key fails its integer cast and the error surfaces with
an empty path. -/
theorem cast_error_path_wrapping_witness :
    CastValue (.map (.cons (.bool true) (.int 2) .nil))
        (.map (.cons (.str ("INT")) (.str ("STRING")) .nil)) =
      .error (mkErr (.invalidPrimitiveType (.bool true) [.int])) :=
  cast_error_path_wrapping.2.2.2.2 ("INT") (.str ("STRING")) (.bool true)
    (.int 2) .nil (mkErr (.invalidPrimitiveType (.bool true) [.int]))
    (by simp only [ValidateValueType, validateMapEntries, hasGenericKey,
          ValueKVs.length]; decide)
    (by decide)
    (by simp only [CastValue, ValidateValueType, castPrimitive, ValidateValue]; decide)

/-- Structural induction for `ValueList` alone (the mutual recursor has
multiple motives, which the induction tactic cannot use directly). -/
theorem valueList_inductionOn {motive : ValueList → Prop} (nil : motive .nil)
    (cons : ∀ hd tl, motive tl → motive (.cons hd tl)) : ∀ xs, motive xs
  | .nil => nil
  | .cons hd tl => cons hd tl (valueList_inductionOn nil cons tl)

/-- Structural induction for `ValueKVs` alone. -/
theorem valueKVs_inductionOn {motive : ValueKVs → Prop} (nil : motive .nil)
    (cons : ∀ k v tl, motive tl → motive (.cons k v tl)) : ∀ kvs, motive kvs
  | .nil => nil
  | .cons k v tl => cons k v tl (valueKVs_inductionOn nil cons tl)

/-- A string-slice view equal to `some []` forces the empty list. -/
theorem strSliceOf_eq_nil {xs : ValueList} (h : strSliceOf xs = some []) :
    xs = ValueList.nil := by
  cases xs with
  | nil => rfl
  | cons hd tl => cases hd <;> simp [strSliceOf] at h

/-- A validated sequence type-expression is a singleton holding one valid
union string (`ValidateValueType` enforces length exactly one). -/
theorem validate_seq_ok_shape {xs : ValueList}
    (h : ValidateValueType (.seq xs) = .ok ()) :
    ∃ s, xs = ValueList.cons (.str s) .nil ∧ isValidValueType s = true := by
  simp only [ValidateValueType] at h
  split at h
  · rename_i s0 hss
    obtain ⟨tl, rfl, htl⟩ := strSliceOf_eq_cons hss
    have := strSliceOf_eq_nil htl
    subst this
    refine ⟨s0, rfl, ?_⟩
    by_cases hv : isValidValueType s0 = true
    · exact hv
    · simp [hv] at h
  all_goals simp_all

/-- A validated map type-expression passed its entry loop. -/
theorem validate_map_ok_entries {kvs : ValueKVs}
    (h : ValidateValueType (.map kvs) = .ok ()) :
    validateMapEntries (hasGenericKey kvs) kvs = .ok () := by
  simp only [ValidateValueType] at h
  by_cases hc : (hasGenericKey kvs && (kvs.length != 1)) = true
  · simp [hc] at h
  · simpa [hc] using h

/-- Every entry value of a validated map entry loop is itself validated. -/
theorem validateMapEntries_values {g : Bool} {kvs : ValueKVs}
    (h : validateMapEntries g kvs = .ok ()) :
    ∀ p ∈ kvs.toList, ValidateValueType p.2 = .ok () := by
  induction kvs using valueKVs_inductionOn with
  | nil => simp [ValueKVs.toList]
  | cons k v tl ih =>
    simp only [validateMapEntries] at h
    split at h
    · simp at h
    · split at h
      · simp at h
      · rename_i hv
        intro p hp
        rcases (by simpa [ValueKVs.toList] using hp :
            p = (k, v) ∨ p ∈ tl.toList) with rfl | hmem
        · simpa using hv
        · exact ih h p hmem

/-- A successful Go map read yields an entry of the map. -/
theorem mapGet_mem {kvs : ValueKVs} {k v : Value} (h : mapGet kvs k = some v) :
    (k, v) ∈ kvs.toList := by
  induction kvs using valueKVs_inductionOn with
  | nil => simp [mapGet] at h
  | cons k0 v0 tl ih =>
    simp only [mapGet] at h
    split at h
    · rename_i heq
      simp only [Option.some.injEq] at h
      simp [ValueKVs.toList, heq, h]
    · simp [ValueKVs.toList, ih h]

/-- A union-string schema never reaches an unguarded index: the matcher
always returns a result on it. -/
theorem check_str_isSome (r : Value) (s : String) :
    (CheckValueRuntimeTypesMatch r (.str s)).isSome = true := by
  cases r <;> simp [CheckValueRuntimeTypesMatch]
  split <;> simp

/-- An entry value is smaller than its map. -/
theorem sizeOf_snd_lt_of_mem_toList {kvs : ValueKVs} {p : Value × Value}
    (h : p ∈ kvs.toList) : sizeOf p.2 < sizeOf kvs := by
  induction kvs using valueKVs_inductionOn with
  | nil => simp [ValueKVs.toList] at h
  | cons k v tl ih =>
    rcases (by simpa [ValueKVs.toList] using h : p = (k, v) ∨ p ∈ tl.toList) with
      rfl | hmem
    · simp
      omega
    · have := ih hmem
      simp
      omega

/-- The generic-map matcher loop has a result whenever every entry value's
recursive match has one. -/
theorem checkGenericEntries_isSome (gk : String) (gv : Value) (entries : ValueKVs)
    (hvals : ∀ p ∈ entries.toList,
      (CheckValueRuntimeTypesMatch p.2 gv).isSome = true) :
    (checkGenericEntries gk gv entries).isSome = true := by
  induction entries using valueKVs_inductionOn with
  | nil => simp [checkGenericEntries]
  | cons k v tl ih =>
    obtain ⟨rk, hrk⟩ := Option.isSome_iff_exists.mp (check_str_isSome k gk)
    obtain ⟨rv, hrv⟩ :=
      Option.isSome_iff_exists.mp (hvals (k, v) (by simp [ValueKVs.toList]))
    cases rk with
    | error e => simp [checkGenericEntries, hrk]
    | ok u =>
      cases rv with
      | error e => simp [checkGenericEntries, hrk, hrv]
      | ok u2 =>
        simp only [checkGenericEntries, hrk, hrv]
        exact ih (fun p hp => hvals p (by simp [ValueKVs.toList, hp]))

/-- The fixed-map matcher loop has a result whenever every recursive match
on a present field has one. -/
theorem checkFixedEntries_isSome (schemaEntries runtimeMap : ValueKVs)
    (h : ∀ p ∈ schemaEntries.toList, ∀ rv, mapGet runtimeMap p.1 = some rv →
      (CheckValueRuntimeTypesMatch rv p.2).isSome = true) :
    (checkFixedEntries schemaEntries runtimeMap).isSome = true := by
  induction schemaEntries using valueKVs_inductionOn with
  | nil => simp [checkFixedEntries]
  | cons k t tl ih =>
    cases hget : mapGet runtimeMap k with
    | none => simp [checkFixedEntries, hget]
    | some rv =>
      obtain ⟨res, hres⟩ :=
        Option.isSome_iff_exists.mp (h (k, t) (by simp [ValueKVs.toList]) rv hget)
      cases res with
      | error e => simp [checkFixedEntries, hget, hres]
      | ok u =>
        simp only [checkFixedEntries, hget, hres]
        exact ih (fun p hp rv2 hget2 => h p (by simp [ValueKVs.toList, hp]) rv2 hget2)

/-- The matcher never reaches its unguarded indexes when both arguments
passed `ValidateValueType`: by induction on the schema size. -/
theorem check_isSome_aux :
    ∀ (fuel : Nat) (schemaType runtimeType : Value), sizeOf schemaType ≤ fuel →
      ValidateValueType schemaType = .ok () →
      ValidateValueType runtimeType = .ok () →
      (CheckValueRuntimeTypesMatch runtimeType schemaType).isSome = true := by
  intro fuel
  induction fuel with
  | zero =>
    intro t r hsz _ _
    have := value_sizeOf_pos t
    omega
  | succ n ih =>
    intro t r hsz ht hr
    cases t with
    | null => simp [ValidateValueType] at ht
    | int m => simp [ValidateValueType] at ht
    | float q => simp [ValidateValueType] at ht
    | bool b => simp [ValidateValueType] at ht
    | str s => exact check_str_isSome r s
    | seq xs =>
      obtain ⟨s0, rfl, _⟩ := validate_seq_ok_shape ht
      cases r with
      | null => simp [ValidateValueType] at hr
      | int m => simp [ValidateValueType] at hr
      | float q => simp [ValidateValueType] at hr
      | bool b => simp [ValidateValueType] at hr
      | str rs => simp [CheckValueRuntimeTypesMatch, strSliceOf, interfaceToStrSlice]
      | map rkvs => simp [CheckValueRuntimeTypesMatch, strSliceOf, interfaceToStrSlice]
      | seq rxs =>
        obtain ⟨rs0, rfl, _⟩ := validate_seq_ok_shape hr
        simp only [CheckValueRuntimeTypesMatch, strSliceOf, interfaceToStrSlice,
          Option.map_some', Option.isSome_some, if_true]
        split <;> simp
    | map skvs =>
      have hsent := validateMapEntries_values (validate_map_ok_entries ht)
      cases r with
      | null => simp [ValidateValueType] at hr
      | int m => simp [ValidateValueType] at hr
      | float q => simp [ValidateValueType] at hr
      | bool b => simp [ValidateValueType] at hr
      | str rs => simp [CheckValueRuntimeTypesMatch, interfaceToInterfaceInterfaceMap]
      | seq rxs => simp [CheckValueRuntimeTypesMatch, interfaceToInterfaceInterfaceMap]
      | map rkvs =>
        have hrent := validateMapEntries_values (validate_map_ok_entries hr)
        have hsub : ∀ p ∈ skvs.toList, ∀ rv, mapGet rkvs p.1 = some rv →
            (CheckValueRuntimeTypesMatch rv p.2).isSome = true := by
          intro p hp rv hget
          refine ih p.2 rv ?_ (hsent p hp) (hrent (p.1, rv) (mapGet_mem hget))
          have hlt := sizeOf_snd_lt_of_mem_toList hp
          simp only [Value.map.sizeOf_spec] at hsz
          omega
        cases skvs with
        | nil =>
          simp only [CheckValueRuntimeTypesMatch, interfaceToInterfaceInterfaceMap]
          obtain ⟨res, hres⟩ :=
            Option.isSome_iff_exists.mp (checkFixedEntries_isSome _ _ hsub)
          rw [hres]
          cases res with
          | error e => simp
          | ok u => cases findUnsupportedKey rkvs .nil <;> simp
        | cons k0 v0 tl0 =>
          have fixedCase : ∀ (sE : ValueKVs),
              (∀ p ∈ sE.toList, ∀ rv, mapGet rkvs p.1 = some rv →
                (CheckValueRuntimeTypesMatch rv p.2).isSome = true) →
              (Option.isSome
                (match checkFixedEntries sE rkvs with
                  | none => none
                  | some (Except.error e) => some (Except.error e)
                  | some (Except.ok _) =>
                    match findUnsupportedKey rkvs sE with
                    | some k => some (Except.error (mkErr (ErrKind.unsupportedKey k)))
                    | none => some (Except.ok ()))) = true := by
            intro sE hE
            obtain ⟨res, hres⟩ :=
              Option.isSome_iff_exists.mp (checkFixedEntries_isSome _ _ hE)
            rw [hres]
            cases res with
            | error e => simp
            | ok u => cases findUnsupportedKey rkvs sE <;> simp
          cases k0 with
          | str gk =>
            cases tl0 with
            | nil =>
              simp only [CheckValueRuntimeTypesMatch, interfaceToInterfaceInterfaceMap]
              by_cases hg : isValidValueType gk = true
              · simp only [hg, if_true]
                refine checkGenericEntries_isSome gk v0 rkvs (fun p hp => ?_)
                refine ih v0 p.2 ?_ (hsent (.str gk, v0) (by simp [ValueKVs.toList]))
                  (hrent p hp)
                simp only [Value.map.sizeOf_spec, ValueKVs.cons.sizeOf_spec,
                  ValueKVs.nil.sizeOf_spec, Value.str.sizeOf_spec] at hsz
                omega
              · simp only [hg, if_false]
                exact fixedCase _ hsub
            | cons k1 v1 tl1 =>
              simp only [CheckValueRuntimeTypesMatch, interfaceToInterfaceInterfaceMap]
              exact fixedCase _ hsub
          | null =>
            simp only [CheckValueRuntimeTypesMatch, interfaceToInterfaceInterfaceMap]
            exact fixedCase _ hsub
          | int m2 =>
            simp only [CheckValueRuntimeTypesMatch, interfaceToInterfaceInterfaceMap]
            exact fixedCase _ hsub
          | float q2 =>
            simp only [CheckValueRuntimeTypesMatch, interfaceToInterfaceInterfaceMap]
            exact fixedCase _ hsub
          | bool b2 =>
            simp only [CheckValueRuntimeTypesMatch, interfaceToInterfaceInterfaceMap]
            exact fixedCase _ hsub
          | seq xs2 =>
            simp only [CheckValueRuntimeTypesMatch, interfaceToInterfaceInterfaceMap]
            exact fixedCase _ hsub
          | map m2 =>
            simp only [CheckValueRuntimeTypesMatch, interfaceToInterfaceInterfaceMap]
            exact fixedCase _ hsub

/-- Every declared type in a validated argument map is itself validated. -/
theorem validateArgTypes_values {l : List (String × Value)}
    (h : ValidateArgTypes l = .ok ()) :
    ∀ p ∈ l, ValidateValueType p.2 = .ok () := by
  induction l with
  | nil => simp
  | cons hd tl ih =>
    obtain ⟨n, t⟩ := hd
    simp only [ValidateArgTypes] at h
    split at h
    · simp at h
    · split at h
      · simp at h
      · rename_i hv
        intro p hp
        rcases (by simpa using hp : p = (n, t) ∨ p ∈ tl) with rfl | hmem
        · simpa using hv
        · exact ih h p hmem

/-- A successful string-keyed lookup yields an entry of the list. -/
theorem lookupStr_mem {l : List (String × Value)} {n : String} {v : Value}
    (h : lookupStr l n = some v) : (n, v) ∈ l := by
  induction l with
  | nil => simp [lookupStr] at h
  | cons hd tl ih =>
    obtain ⟨n0, v0⟩ := hd
    simp only [lookupStr] at h
    split at h
    · rename_i heq
      simp only [Option.some.injEq] at h
      simp [heq, h]
    · simp [ih h]

/-- The per-argument matcher loop has a result when both sides' declared
types are validated. -/
theorem checkArgEntries_isSome (argRuntimeTypes : List (String × Value))
    (allSchemaKeys : List String)
    (hrt : ∀ p ∈ argRuntimeTypes, ValidateValueType p.2 = .ok ()) :
    ∀ (schemaEntries : List (String × Value)),
      (∀ p ∈ schemaEntries, ValidateValueType p.2 = .ok ()) →
      (checkArgEntries argRuntimeTypes allSchemaKeys schemaEntries).isSome = true := by
  intro schemaEntries
  induction schemaEntries with
  | nil => intro _; simp [checkArgEntries]
  | cons hd tl ih =>
    intro hschema
    obtain ⟨n, t⟩ := hd
    by_cases hlen : argRuntimeTypes.length = 0
    · simp [checkArgEntries, hlen]
    · cases hget : lookupStr argRuntimeTypes n with
      | none => simp [checkArgEntries, hlen, hget]
      | some rt =>
        have hck : (CheckValueRuntimeTypesMatch rt t).isSome = true :=
          check_isSome_aux (sizeOf t) t rt (Nat.le_refl _)
            (hschema (n, t) (by simp)) (hrt (n, rt) (lookupStr_mem hget))
        obtain ⟨res, hres⟩ := Option.isSome_iff_exists.mp hck
        cases res with
        | error e => simp [checkArgEntries, hlen, hget, hres]
        | ok u =>
          simp only [checkArgEntries, hlen, hget, hres, if_neg]
          exact ih (fun p hp => hschema p (by simp [hp]))

/-- C10: `CheckValueRuntimeTypesMatch` does not validate its arguments, and
its string-slice arm indexes element 0 of both slices unguarded; the
indexing is safe under the precondition that both arguments passed
`ValidateValueType` (which forces every sequence type-expression to be a
singleton), and `CheckArgRuntimeTypesMatch` always has a result because it
validates both sides before matching; a direct call with an empty-sequence
schema or runtime type reaches the unguarded index - modelled as `none`,
the Go panic. -/
theorem check_unguarded_index_safety :
    (∀ (schemaType runtimeType : Value),
      ValidateValueType schemaType = .ok () →
      ValidateValueType runtimeType = .ok () →
      (CheckValueRuntimeTypesMatch runtimeType schemaType).isSome = true) ∧
    (∀ (argRuntimeTypes argSchemaTypes : List (String × Value)),
      (CheckArgRuntimeTypesMatch argRuntimeTypes argSchemaTypes).isSome = true) ∧
    (∀ (xs : ValueList), ValidateValueType (.seq xs) = .ok () →
      ∃ s, xs = ValueList.cons (.str s) .nil) ∧
    CheckValueRuntimeTypesMatch (.seq .nil) (.seq (.cons (.str ("INT")) .nil)) =
      none ∧
    CheckValueRuntimeTypesMatch (.str ("INT")) (.seq .nil) = none := by
  refine ⟨?_, ?_, ?_, ?_, ?_⟩
  · intro t r ht hr
    exact check_isSome_aux (sizeOf t) t r (Nat.le_refl _) ht hr
  · intro rts sts
    cases hs : ValidateArgTypes sts with
    | error e => simp [CheckArgRuntimeTypesMatch, hs]
    | ok u =>
      cases hrv : ValidateArgTypes rts with
      | error e => simp [CheckArgRuntimeTypesMatch, hs, hrv]
      | ok u2 =>
        have hargs :=
          checkArgEntries_isSome rts (sts.map (fun p => p.1))
            (validateArgTypes_values hrv) sts (validateArgTypes_values hs)
        obtain ⟨res, hres⟩ := Option.isSome_iff_exists.mp hargs
        cases res with
        | error e => simp [CheckArgRuntimeTypesMatch, hs, hrv, hres]
        | ok u3 =>
          simp only [CheckArgRuntimeTypesMatch, hs, hrv, hres]
          cases findExtraArg rts sts <;> simp
  · intro xs h
    obtain ⟨s, hs, _⟩ := validate_seq_ok_shape h
    exact ⟨s, hs⟩
  · simp [CheckValueRuntimeTypesMatch, strSliceOf, interfaceToStrSlice]
  · simp [CheckValueRuntimeTypesMatch, strSliceOf, interfaceToStrSlice]

/-- C10 witness: the safety precondition applied at the concrete validated
pair `STRING` against `STRING|INT`, and the panic reached on the concrete
empty-sequence schema. -/
theorem check_unguarded_index_safety_witness :
    (CheckValueRuntimeTypesMatch (.str ("STRING")) (.str ("STRING|INT"))).isSome =
      true :=
  check_unguarded_index_safety.1 (.str ("STRING|INT")) (.str ("STRING"))
    (by simp only [ValidateValueType]; decide)
    (by simp only [ValidateValueType]; decide)

/-- Reference form of the fixed-map cast loop: for each declared field in
order, read the field from the value map and cast it; `none` when a field
is absent or a cast fails. -/
def fixedCastKVs : ValueKVs → ValueKVs → Option ValueKVs
  | .nil, _ => some .nil
  | .cons k tv tl, valueMap =>
    match mapGet valueMap k with
    | none => none
    | some v =>
      match CastValue v tv with
      | .error _ => none
      | .ok cv => (fixedCastKVs tl valueMap).map (fun rest => ValueKVs.cons k cv rest)

/-- The fixed-map cast loop is the accumulator fold of the reference form. -/
theorem castFixedEntries_eq_insertList (valueMap : ValueKVs) :
    ∀ (schemaEntries acc : ValueKVs) (out : ValueKVs),
      castFixedEntries schemaEntries valueMap acc = .ok out ↔
        ∃ cs, fixedCastKVs schemaEntries valueMap = some cs ∧
          out = insertList acc cs := by
  intro schemaEntries
  induction schemaEntries using valueKVs_inductionOn with
  | nil =>
    intro acc out
    simp [castFixedEntries, fixedCastKVs, insertList, eq_comm]
  | cons k tv tl ih =>
    intro acc out
    cases hget : mapGet valueMap k with
    | none => simp [castFixedEntries, fixedCastKVs, hget]
    | some v =>
      cases hcast : CastValue v tv with
      | error e => simp [castFixedEntries, fixedCastKVs, hget, hcast]
      | ok cv =>
        simp only [castFixedEntries, fixedCastKVs, hget, hcast]
        rw [ih]
        constructor
        · rintro ⟨cs, hcs, rfl⟩
          exact ⟨.cons k cv cs, by simp [hcs], by simp [insertList]⟩
        · rintro ⟨cs, hcs, rfl⟩
          rcases hfx : fixedCastKVs tl valueMap with _ | cs2
          · rw [hfx] at hcs
            simp at hcs
          · rw [hfx] at hcs
            simp only [Option.map_some', Option.some.injEq] at hcs
            exact ⟨cs2, rfl, by rw [← hcs]; simp [insertList]⟩

/-- The reference form preserves the declared key list. -/
theorem fixedCastKVs_keys {valueMap : ValueKVs} :
    ∀ {schemaEntries cs : ValueKVs},
      fixedCastKVs schemaEntries valueMap = some cs →
      cs.keys = schemaEntries.keys := by
  intro schemaEntries
  induction schemaEntries using valueKVs_inductionOn with
  | nil =>
    intro cs h
    simp only [fixedCastKVs, Option.some.injEq] at h
    simp [← h, ValueKVs.keys]
  | cons k tv tl ih =>
    intro cs h
    simp only [fixedCastKVs] at h
    split at h
    · simp at h
    · split at h
      · simp at h
      · rcases hfx : fixedCastKVs tl valueMap with _ | cs2
        · rw [hfx] at h
          simp at h
        · rw [hfx] at h
          simp only [Option.map_some', Option.some.injEq] at h
          subst h
          simp [ValueKVs.keys, ih hfx]

/-- Inserting entries whose keys avoid `k` passes over a leading entry. -/
theorem insertList_cons_of_not_key :
    ∀ (cs acc : ValueKVs) (k v : Value), mapHasKey cs k = false →
      insertList (.cons k v acc) cs = .cons k v (insertList acc cs) := by
  intro cs
  induction cs using valueKVs_inductionOn with
  | nil => intro acc k v _; simp [insertList]
  | cons k1 v1 tl ih =>
    intro acc k v h
    simp only [mapHasKey, mapGet] at h
    by_cases hk : k1 = k
    · simp [hk] at h
    · simp only [insertList, mapInsert, if_neg (Ne.symm hk)]
      rw [if_neg hk] at h
      exact ih (mapInsert acc k1 v1) k v (by simp [mapHasKey, h])

/-- Folding the entries of a map with pairwise distinct keys into the empty
map rebuilds it. -/
theorem insertList_nil_self :
    ∀ (cs : ValueKVs), keysNodupB cs = true → insertList .nil cs = cs := by
  intro cs
  induction cs using valueKVs_inductionOn with
  | nil => simp [insertList]
  | cons k v tl ih =>
    intro h
    simp only [keysNodupB, Bool.and_eq_true, Bool.not_eq_true'] at h
    obtain ⟨h1, h2⟩ := h
    simp only [insertList, mapInsert]
    rw [insertList_cons_of_not_key tl .nil k v h1, ih h2]

/-- An entry's key is among the map's keys. -/
theorem mem_keys_of_mem_toList {kvs : ValueKVs} {p : Value × Value}
    (h : p ∈ kvs.toList) : p.1 ∈ kvs.keys := by
  induction kvs using valueKVs_inductionOn with
  | nil => simp [ValueKVs.toList] at h
  | cons k v tl ih =>
    rcases (by simpa [ValueKVs.toList] using h : p = (k, v) ∨ p ∈ tl.toList) with
      rfl | hmem
    · simp [ValueKVs.keys]
    · simp [ValueKVs.keys, ih hmem]

/-- Go map membership is membership in the key list. -/
theorem mapHasKey_iff_mem_keys {kvs : ValueKVs} {k : Value} :
    mapHasKey kvs k = true ↔ k ∈ kvs.keys := by
  induction kvs using valueKVs_inductionOn with
  | nil => simp [mapHasKey, mapGet, ValueKVs.keys]
  | cons k0 v0 tl ih =>
    by_cases hk : k0 = k
    · simp [mapHasKey, mapGet, ValueKVs.keys, hk]
    · simp only [mapHasKey, mapGet, if_neg hk, ValueKVs.keys, List.mem_cons]
      rw [← mapHasKey]
      simp [ih, hk, Ne.symm hk]

/-- The reference fixed cast has a result exactly when every declared field
is present and casts. -/
theorem fixedCastKVs_isSome_iff {valueMap : ValueKVs} :
    ∀ {schemaEntries : ValueKVs},
      (fixedCastKVs schemaEntries valueMap).isSome = true ↔
        ∀ p ∈ schemaEntries.toList, ∃ v, mapGet valueMap p.1 = some v ∧
          ∃ cv, CastValue v p.2 = .ok cv := by
  intro schemaEntries
  induction schemaEntries using valueKVs_inductionOn with
  | nil => simp [fixedCastKVs, ValueKVs.toList]
  | cons k tv tl ih =>
    cases hget : mapGet valueMap k with
    | none =>
      simp only [fixedCastKVs, hget, Option.isSome_none]
      constructor
      · intro h
        exact absurd h (by simp)
      · intro h
        exfalso
        obtain ⟨v, hv, _⟩ := h (k, tv) (by simp [ValueKVs.toList])
        dsimp only at hv
        rw [hget] at hv
        simp at hv
    | some v =>
      cases hcast : CastValue v tv with
      | error e =>
        simp only [fixedCastKVs, hget, hcast, Option.isSome_none]
        constructor
        · intro h
          exact absurd h (by simp)
        · intro h
          exfalso
          obtain ⟨v2, hv2, cv, hcv⟩ := h (k, tv) (by simp [ValueKVs.toList])
          dsimp only at hv2 hcv
          rw [hget] at hv2
          obtain rfl : v = v2 := by simpa using hv2
          rw [hcast] at hcv
          simp at hcv
      | ok cv =>
        simp only [fixedCastKVs, hget, hcast]
        cases hfx : fixedCastKVs tl valueMap with
        | none =>
          simp only [Option.map_none']
          constructor
          · intro h
            exact absurd h (by simp)
          · intro h
            exfalso
            have hsome : (fixedCastKVs tl valueMap).isSome = true :=
              ih.mpr (fun p hp => h p (by simp [ValueKVs.toList, hp]))
            rw [hfx] at hsome
            simp at hsome
        | some cs2 =>
          simp only [Option.map_some']
          constructor
          · intro _ p hp
            rcases (by simpa [ValueKVs.toList] using hp :
                p = (k, tv) ∨ p ∈ tl.toList) with rfl | hmem
            · exact ⟨v, hget, cv, hcast⟩
            · exact (ih.mp (by simp [hfx])) p hmem
          · intro _
            simp

/-- On a schema with pairwise distinct keys, the reference fixed cast maps
each declared field to the cast of the field read from the value map. -/
theorem fixedCastKVs_get {valueMap : ValueKVs} :
    ∀ {schemaEntries cs : ValueKVs},
      fixedCastKVs schemaEntries valueMap = some cs →
      keysNodupB schemaEntries = true →
      ∀ p ∈ schemaEntries.toList, ∃ v cv, mapGet valueMap p.1 = some v ∧
        CastValue v p.2 = .ok cv ∧ mapGet cs p.1 = some cv := by
  intro schemaEntries
  induction schemaEntries using valueKVs_inductionOn with
  | nil =>
    intro cs _ _ p hp
    simp [ValueKVs.toList] at hp
  | cons k tv tl ih =>
    intro cs h hnd p hp
    simp only [keysNodupB, Bool.and_eq_true, Bool.not_eq_true'] at hnd
    obtain ⟨hnk, hnd2⟩ := hnd
    cases hget : mapGet valueMap k with
    | none => simp [fixedCastKVs, hget] at h
    | some v =>
      cases hcast : CastValue v tv with
      | error e => simp [fixedCastKVs, hget, hcast] at h
      | ok cv =>
        simp only [fixedCastKVs, hget, hcast] at h
        cases hfx : fixedCastKVs tl valueMap with
        | none => rw [hfx] at h; simp at h
        | some cs2 =>
          rw [hfx] at h
          simp only [Option.map_some', Option.some.injEq] at h
          subst h
          rcases (by simpa [ValueKVs.toList] using hp :
              p = (k, tv) ∨ p ∈ tl.toList) with rfl | hmem
          · exact ⟨v, cv, hget, hcast, by simp [mapGet]⟩
          · obtain ⟨v2, cv2, hg2, hc2, hget2⟩ := ih hfx hnd2 p hmem
            refine ⟨v2, cv2, hg2, hc2, ?_⟩
            have hkne : k ≠ p.1 := by
              intro hkp
              have hpk := mem_keys_of_mem_toList hmem
              rw [← hkp] at hpk
              rw [← mapHasKey_iff_mem_keys] at hpk
              rw [hnk] at hpk
              simp at hpk
            simp [mapGet, if_neg hkne, hget2]

/-- `findUnsupportedKey` returns nothing exactly when every key of the
first map is declared in the second. -/
theorem findUnsupportedKey_none_iff {valueMap schemaMap : ValueKVs} :
    findUnsupportedKey valueMap schemaMap = none ↔
      ∀ k ∈ valueMap.keys, mapHasKey schemaMap k = true := by
  induction valueMap using valueKVs_inductionOn with
  | nil => simp [findUnsupportedKey, ValueKVs.keys]
  | cons k v tl ih =>
    by_cases hk : mapHasKey schemaMap k = true
    · simp [findUnsupportedKey, hk, ValueKVs.keys, ih]
    · simp [findUnsupportedKey, hk, ValueKVs.keys]

/-- A found unsupported key is an undeclared key of the value map. -/
theorem findUnsupportedKey_some {valueMap schemaMap : ValueKVs} {k : Value}
    (h : findUnsupportedKey valueMap schemaMap = some k) :
    mapHasKey schemaMap k = false ∧ k ∈ valueMap.keys := by
  induction valueMap using valueKVs_inductionOn with
  | nil => simp [findUnsupportedKey] at h
  | cons k0 v0 tl ih =>
    simp only [findUnsupportedKey] at h
    split at h
    · obtain ⟨h1, h2⟩ := ih h
      exact ⟨h1, by simp [ValueKVs.keys, h2]⟩
    · rename_i hk0
      simp only [Option.some.injEq] at h
      subst h
      exact ⟨by simpa using hk0, by simp [ValueKVs.keys]⟩

/-- When every present declared field casts but some declared field is
absent, the fixed-map loop reports the first absent field. -/
theorem castFixedEntries_missing (valueMap : ValueKVs) :
    ∀ (schemaEntries acc : ValueKVs),
      (∀ p ∈ schemaEntries.toList, ∀ v, mapGet valueMap p.1 = some v →
        ∃ cv, CastValue v p.2 = .ok cv) →
      (∃ p ∈ schemaEntries.toList, mapGet valueMap p.1 = none) →
      ∃ k, mapGet valueMap k = none ∧ k ∈ schemaEntries.keys ∧
        castFixedEntries schemaEntries valueMap acc =
          .error ⟨[userStrStripped k], .mustBeDefined⟩ := by
  intro schemaEntries
  induction schemaEntries using valueKVs_inductionOn with
  | nil =>
    intro acc _ habs
    simp [ValueKVs.toList] at habs
  | cons k tv tl ih =>
    intro acc hcasts habs
    cases hget : mapGet valueMap k with
    | none =>
      refine ⟨k, hget, by simp [ValueKVs.keys], ?_⟩
      simp [castFixedEntries, hget, wrap, mkErr]
    | some v =>
      obtain ⟨cv, hcv⟩ :=
        hcasts (k, tv) (by simp [ValueKVs.toList]) v hget
      obtain ⟨p, hp, hpnone⟩ := habs
      rcases (by simpa [ValueKVs.toList] using hp :
          p = (k, tv) ∨ p ∈ tl.toList) with rfl | hmem
      · rw [hget] at hpnone
        simp at hpnone
      · obtain ⟨k2, h1, h2, h3⟩ :=
          ih (mapInsert acc k cv)
            (fun p2 hp2 v2 hg2 => hcasts p2 (by simp [ValueKVs.toList, hp2]) v2 hg2)
            ⟨p, hmem, hpnone⟩
        exact ⟨k2, h1, by simp [ValueKVs.keys, h2],
          by simp [castFixedEntries, hget, hcv, h3]⟩

/-- Casting a non-nil, non-map value against a map schema fails with the
invalid-primitive-type error naming the map kind. -/
theorem castValue_map_nonmap (skvs : ValueKVs) (v : Value)
    (hval : ValidateValueType (.map skvs) = .ok ())
    (hv : v ≠ .null) (hnm : interfaceToInterfaceInterfaceMap v = none) :
    CastValue v (.map skvs) = .error (mkErr (.invalidPrimitiveType v [.map])) := by
  cases v with
  | null => exact absurd rfl hv
  | map kvs => simp [interfaceToInterfaceInterfaceMap] at hnm
  | int n => simp [CastValue, hval, ValidateValue, interfaceToInterfaceInterfaceMap]
  | float q => simp [CastValue, hval, ValidateValue, interfaceToInterfaceInterfaceMap]
  | str s => simp [CastValue, hval, ValidateValue, interfaceToInterfaceInterfaceMap]
  | bool b => simp [CastValue, hval, ValidateValue, interfaceToInterfaceInterfaceMap]
  | seq xs => simp [CastValue, hval, ValidateValue, interfaceToInterfaceInterfaceMap]

/-- Against a non-empty, non-generic map schema, `CastValue` fails exactly
as its fixed-map loop fails. -/
theorem castValue_fixed_error (skvs vkvs : ValueKVs) (e : Err)
    (hval : ValidateValueType (.map skvs) = .ok ())
    (hne : skvs ≠ .nil) (hng : genericMapSchema skvs = none)
    (hres : castFixedEntries skvs vkvs .nil = .error e) :
    CastValue (.map vkvs) (.map skvs) = .error e := by
  cases skvs with
  | nil => exact absurd rfl hne
  | cons k0 v0 tl0 =>
    cases k0 with
    | str gk =>
      cases tl0 with
      | nil =>
        have hgv : isValidValueType gk = false := by
          by_cases hg : isValidValueType gk = true
          · simp [genericMapSchema, hg] at hng
          · simpa using hg
        simp [CastValue, hval, ValidateValue, interfaceToInterfaceInterfaceMap,
          ValueKVs.length, hgv, hres]
      | cons k1 v1 tl1 =>
        simp [CastValue, hval, ValidateValue, interfaceToInterfaceInterfaceMap,
          ValueKVs.length, hres]
    | null =>
      simp [CastValue, hval, ValidateValue, interfaceToInterfaceInterfaceMap,
        ValueKVs.length, hres]
    | int n2 =>
      simp [CastValue, hval, ValidateValue, interfaceToInterfaceInterfaceMap,
        ValueKVs.length, hres]
    | float q2 =>
      simp [CastValue, hval, ValidateValue, interfaceToInterfaceInterfaceMap,
        ValueKVs.length, hres]
    | bool b2 =>
      simp [CastValue, hval, ValidateValue, interfaceToInterfaceInterfaceMap,
        ValueKVs.length, hres]
    | seq xs2 =>
      simp [CastValue, hval, ValidateValue, interfaceToInterfaceInterfaceMap,
        ValueKVs.length, hres]
    | map kvs2 =>
      simp [CastValue, hval, ValidateValue, interfaceToInterfaceInterfaceMap,
        ValueKVs.length, hres]

/-- Against a non-empty, non-generic map schema, a successful fixed-map loop
followed by a found undeclared key is the unsupported-key error. -/
theorem castValue_fixed_extra (skvs vkvs casted : ValueKVs) (k : Value)
    (hval : ValidateValueType (.map skvs) = .ok ())
    (hne : skvs ≠ .nil) (hng : genericMapSchema skvs = none)
    (hres : castFixedEntries skvs vkvs .nil = .ok casted)
    (hfind : findUnsupportedKey vkvs skvs = some k) :
    CastValue (.map vkvs) (.map skvs) = .error (mkErr (.unsupportedKey k)) := by
  cases skvs with
  | nil => exact absurd rfl hne
  | cons k0 v0 tl0 =>
    cases k0 with
    | str gk =>
      cases tl0 with
      | nil =>
        have hgv : isValidValueType gk = false := by
          by_cases hg : isValidValueType gk = true
          · simp [genericMapSchema, hg] at hng
          · simpa using hg
        simp [CastValue, hval, ValidateValue, interfaceToInterfaceInterfaceMap,
          ValueKVs.length, hgv, hres, hfind]
      | cons k1 v1 tl1 =>
        simp [CastValue, hval, ValidateValue, interfaceToInterfaceInterfaceMap,
          ValueKVs.length, hres, hfind]
    | null =>
      simp [CastValue, hval, ValidateValue, interfaceToInterfaceInterfaceMap,
        ValueKVs.length, hres, hfind]
    | int n2 =>
      simp [CastValue, hval, ValidateValue, interfaceToInterfaceInterfaceMap,
        ValueKVs.length, hres, hfind]
    | float q2 =>
      simp [CastValue, hval, ValidateValue, interfaceToInterfaceInterfaceMap,
        ValueKVs.length, hres, hfind]
    | bool b2 =>
      simp [CastValue, hval, ValidateValue, interfaceToInterfaceInterfaceMap,
        ValueKVs.length, hres, hfind]
    | seq xs2 =>
      simp [CastValue, hval, ValidateValue, interfaceToInterfaceInterfaceMap,
        ValueKVs.length, hres, hfind]
    | map kvs2 =>
      simp [CastValue, hval, ValidateValue, interfaceToInterfaceInterfaceMap,
        ValueKVs.length, hres, hfind]

/-- Against a non-empty, non-generic map schema, a successful fixed-map loop
with no undeclared key is the cast map. -/
theorem castValue_fixed_ok (skvs vkvs casted : ValueKVs)
    (hval : ValidateValueType (.map skvs) = .ok ())
    (hne : skvs ≠ .nil) (hng : genericMapSchema skvs = none)
    (hres : castFixedEntries skvs vkvs .nil = .ok casted)
    (hfind : findUnsupportedKey vkvs skvs = none) :
    CastValue (.map vkvs) (.map skvs) = .ok (.map casted) := by
  cases skvs with
  | nil => exact absurd rfl hne
  | cons k0 v0 tl0 =>
    cases k0 with
    | str gk =>
      cases tl0 with
      | nil =>
        have hgv : isValidValueType gk = false := by
          by_cases hg : isValidValueType gk = true
          · simp [genericMapSchema, hg] at hng
          · simpa using hg
        simp [CastValue, hval, ValidateValue, interfaceToInterfaceInterfaceMap,
          ValueKVs.length, hgv, hres, hfind]
      | cons k1 v1 tl1 =>
        simp [CastValue, hval, ValidateValue, interfaceToInterfaceInterfaceMap,
          ValueKVs.length, hres, hfind]
    | null =>
      simp [CastValue, hval, ValidateValue, interfaceToInterfaceInterfaceMap,
        ValueKVs.length, hres, hfind]
    | int n2 =>
      simp [CastValue, hval, ValidateValue, interfaceToInterfaceInterfaceMap,
        ValueKVs.length, hres, hfind]
    | float q2 =>
      simp [CastValue, hval, ValidateValue, interfaceToInterfaceInterfaceMap,
        ValueKVs.length, hres, hfind]
    | bool b2 =>
      simp [CastValue, hval, ValidateValue, interfaceToInterfaceInterfaceMap,
        ValueKVs.length, hres, hfind]
    | seq xs2 =>
      simp [CastValue, hval, ValidateValue, interfaceToInterfaceInterfaceMap,
        ValueKVs.length, hres, hfind]
    | map kvs2 =>
      simp [CastValue, hval, ValidateValue, interfaceToInterfaceInterfaceMap,
        ValueKVs.length, hres, hfind]

/-- A key of the map has an entry. -/
theorem keys_mem_toList {kvs : ValueKVs} {k : Value} (h : k ∈ kvs.keys) :
    ∃ v, (k, v) ∈ kvs.toList := by
  induction kvs using valueKVs_inductionOn with
  | nil => simp [ValueKVs.keys] at h
  | cons k0 v0 tl ih =>
    rcases (by simpa [ValueKVs.keys] using h : k = k0 ∨ k ∈ tl.keys) with rfl | hmem
    · exact ⟨v0, by simp [ValueKVs.toList]⟩
    · obtain ⟨v, hv⟩ := ih hmem
      exact ⟨v, by simp [ValueKVs.toList, hv]⟩

/-- The Boolean key-distinctness test is `Nodup` of the key list. -/
theorem keysNodupB_iff {kvs : ValueKVs} :
    keysNodupB kvs = true ↔ kvs.keys.Nodup := by
  induction kvs using valueKVs_inductionOn with
  | nil => simp [keysNodupB, ValueKVs.keys]
  | cons k v tl ih =>
    simp [keysNodupB, ValueKVs.keys, List.nodup_cons, ih, ← mapHasKey_iff_mem_keys]

/-- C3: casting against a non-empty, non-generic (fixed) map schema with
pairwise distinct declared fields succeeds exactly when the value is a map
whose key set equals the declared field set and every field casts
recursively; an absent declared field (with the present ones casting)
yields must-be-defined naming that field; an undeclared value key (with all
declared fields present and casting) yields unsupported-key; a successful
result keeps the original keys with the recursively cast values; and a
non-map value fails with the invalid-primitive-type error. -/
theorem cast_fixed_map_characterization (skvs vkvs : ValueKVs)
    (hval : ValidateValueType (.map skvs) = .ok ())
    (hne : skvs ≠ ValueKVs.nil) (hng : genericMapSchema skvs = none)
    (hnd : keysNodupB skvs = true) :
    ((∃ w, CastValue (.map vkvs) (.map skvs) = .ok w) ↔
      ((∀ k ∈ skvs.keys, mapHasKey vkvs k = true) ∧
       (∀ k ∈ vkvs.keys, mapHasKey skvs k = true) ∧
       (∀ p ∈ skvs.toList, ∃ v, mapGet vkvs p.1 = some v ∧
         ∃ cv, CastValue v p.2 = .ok cv))) ∧
    ((∀ p ∈ skvs.toList, ∀ v, mapGet vkvs p.1 = some v →
        ∃ cv, CastValue v p.2 = .ok cv) →
      (∃ k ∈ skvs.keys, mapHasKey vkvs k = false) →
      ∃ k, mapHasKey vkvs k = false ∧ k ∈ skvs.keys ∧
        CastValue (.map vkvs) (.map skvs) =
          .error ⟨[userStrStripped k], .mustBeDefined⟩) ∧
    ((∀ p ∈ skvs.toList, ∃ v, mapGet vkvs p.1 = some v ∧
        ∃ cv, CastValue v p.2 = .ok cv) →
      (∃ k ∈ vkvs.keys, mapHasKey skvs k = false) →
      ∃ k, mapHasKey skvs k = false ∧ k ∈ vkvs.keys ∧
        CastValue (.map vkvs) (.map skvs) = .error (mkErr (.unsupportedKey k))) ∧
    (∀ w, CastValue (.map vkvs) (.map skvs) = .ok w →
      ∃ wkvs, w = .map wkvs ∧ wkvs.keys = skvs.keys ∧
        ∀ p ∈ skvs.toList, ∃ v cv, mapGet vkvs p.1 = some v ∧
          CastValue v p.2 = .ok cv ∧ mapGet wkvs p.1 = some cv) ∧
    (∀ v, v ≠ .null → interfaceToInterfaceInterfaceMap v = none →
      CastValue v (.map skvs) = .error (mkErr (.invalidPrimitiveType v [.map]))) := by
  refine ⟨?_, ?_, ?_, ?_, ?_⟩
  · constructor
    · rintro ⟨w, hw⟩
      cases hres : castFixedEntries skvs vkvs .nil with
      | error e =>
        rw [castValue_fixed_error skvs vkvs e hval hne hng hres] at hw
        simp at hw
      | ok casted =>
        cases hfind : findUnsupportedKey vkvs skvs with
        | some k =>
          rw [castValue_fixed_extra skvs vkvs casted k hval hne hng hres hfind] at hw
          simp at hw
        | none =>
          obtain ⟨cs, hfx, _⟩ :=
            (castFixedEntries_eq_insertList vkvs skvs .nil casted).mp hres
          have hall := (@fixedCastKVs_isSome_iff vkvs skvs).mp (by simp [hfx])
          refine ⟨?_, findUnsupportedKey_none_iff.mp hfind, hall⟩
          intro k hk
          obtain ⟨v0, hv0⟩ := keys_mem_toList hk
          obtain ⟨v, hv, _⟩ := hall (k, v0) hv0
          dsimp only at hv
          simp [mapHasKey, hv]
    · rintro ⟨h1, h2, h3⟩
      obtain ⟨cs, hfx⟩ :=
        Option.isSome_iff_exists.mp (fixedCastKVs_isSome_iff.mpr h3)
      have hres : castFixedEntries skvs vkvs .nil = .ok (insertList .nil cs) :=
        (castFixedEntries_eq_insertList vkvs skvs .nil _).mpr ⟨cs, hfx, rfl⟩
      exact ⟨_, castValue_fixed_ok skvs vkvs _ hval hne hng hres
        (findUnsupportedKey_none_iff.mpr h2)⟩
  · intro hcasts habs
    obtain ⟨k, hk, hkabs⟩ := habs
    obtain ⟨v0, hv0⟩ := keys_mem_toList hk
    have hnone : mapGet vkvs k = none := by
      rcases hg : mapGet vkvs k with _ | v
      · rfl
      · rw [mapHasKey, hg] at hkabs
        simp at hkabs
    obtain ⟨k2, h1, h2, h3⟩ :=
      castFixedEntries_missing vkvs skvs .nil hcasts ⟨(k, v0), hv0, hnone⟩
    refine ⟨k2, by simp [mapHasKey, h1], h2, ?_⟩
    exact castValue_fixed_error skvs vkvs _ hval hne hng h3
  · intro hpresent hextra
    obtain ⟨cs, hfx⟩ :=
      Option.isSome_iff_exists.mp (fixedCastKVs_isSome_iff.mpr hpresent)
    have hres : castFixedEntries skvs vkvs .nil = .ok (insertList .nil cs) :=
      (castFixedEntries_eq_insertList vkvs skvs .nil _).mpr ⟨cs, hfx, rfl⟩
    cases hfind : findUnsupportedKey vkvs skvs with
    | none =>
      obtain ⟨k, hk, hkf⟩ := hextra
      have := findUnsupportedKey_none_iff.mp hfind k hk
      rw [hkf] at this
      simp at this
    | some k =>
      obtain ⟨hf1, hf2⟩ := findUnsupportedKey_some hfind
      exact ⟨k, hf1, hf2,
        castValue_fixed_extra skvs vkvs _ k hval hne hng hres hfind⟩
  · intro w hw
    cases hres : castFixedEntries skvs vkvs .nil with
    | error e =>
      rw [castValue_fixed_error skvs vkvs e hval hne hng hres] at hw
      simp at hw
    | ok casted =>
      cases hfind : findUnsupportedKey vkvs skvs with
      | some k =>
        rw [castValue_fixed_extra skvs vkvs casted k hval hne hng hres hfind] at hw
        simp at hw
      | none =>
        rw [castValue_fixed_ok skvs vkvs casted hval hne hng hres hfind] at hw
        obtain rfl : Value.map casted = w := by simpa using hw
        obtain ⟨cs, hfx, rfl⟩ :=
          (castFixedEntries_eq_insertList vkvs skvs .nil casted).mp hres
        have hkeys := fixedCastKVs_keys hfx
        have hcsnd : keysNodupB cs = true := by
          rw [keysNodupB_iff, hkeys]
          exact keysNodupB_iff.mp hnd
        rw [insertList_nil_self cs hcsnd]
        refine ⟨cs, rfl, hkeys, ?_⟩
        exact fixedCastKVs_get hfx hnd
  · intro v hv hnm
    exact castValue_map_nonmap skvs v hval hv hnm

/-- C3 witness: the fixed-map characterization applied at the concrete
schema `{x: INT, y: BOOL}` and value `{x: "7", y: true}`. -/
theorem cast_fixed_map_characterization_witness :
    ∃ w, CastValue
        (.map (.cons (.str ("x")) (.str ("7"))
          (.cons (.str ("y")) (.bool true) .nil)))
        (.map (.cons (.str ("x")) (.str ("INT"))
          (.cons (.str ("y")) (.str ("BOOL")) .nil))) = .ok w :=
  ((cast_fixed_map_characterization
      (.cons (.str ("x")) (.str ("INT")) (.cons (.str ("y")) (.str ("BOOL")) .nil))
      (.cons (.str ("x")) (.str ("7")) (.cons (.str ("y")) (.bool true) .nil))
      (by simp only [ValidateValueType, validateMapEntries, hasGenericKey,
            ValueKVs.length]; decide)
      (by decide) (by decide) (by decide)).1).mpr
    ⟨by decide, by decide, by
      intro p hp
      rcases (by simpa [ValueKVs.toList] using hp :
          p = (Value.str ("x"), Value.str ("INT")) ∨
          p = (Value.str ("y"), Value.str ("BOOL"))) with rfl | rfl
      · exact ⟨.str ("7"), by decide, .int 7,
          by simp only [CastValue, ValidateValueType, castPrimitive, ValidateValue]
             decide⟩
      · exact ⟨.bool true, by decide, .bool true,
          by simp only [CastValue, ValidateValueType, castPrimitive, ValidateValue]
             decide⟩⟩

mutual

/-- Every map node inside a schema value has pairwise distinct keys: the
invariant every Go map satisfies, recursively. -/
def schemaNodup : Value → Bool
  | .map kvs => keysNodupB kvs && schemaNodupKVs kvs
  | .seq xs => schemaNodupL xs
  | _ => true

/-- `schemaNodup` over sequence elements. -/
def schemaNodupL : ValueList → Bool
  | .nil => true
  | .cons x tl => schemaNodup x && schemaNodupL tl

/-- `schemaNodup` over map entries. -/
def schemaNodupKVs : ValueKVs → Bool
  | .nil => true
  | .cons k v tl => schemaNodup k && schemaNodup v && schemaNodupKVs tl

end

/-- Reference form of the generic-map cast loop: each entry's key cast and
value cast, in order, without the final map insertion. -/
def genCastKVs (gk : String) (gv : Value) : ValueKVs → Option ValueKVs
  | .nil => some .nil
  | .cons k v tl =>
    match CastValue k (.str gk) with
    | .error _ => none
    | .ok kc =>
      match CastValue v gv with
      | .error _ => none
      | .ok vc => (genCastKVs gk gv tl).map (fun rest => ValueKVs.cons kc vc rest)

/-- A successful union cast produced one of the four canonical shapes, with
the facts that pin down its re-cast. -/
theorem castPrimitive_ok_cases {v w : Value} {ks : List String}
    (h : castPrimitive v ks = .ok w) :
    (∃ n, w = Value.int n ∧ hasString ks ("INT") = true) ∨
    (∃ q, w = Value.float q ∧ hasString ks ("FLOAT") = true) ∨
    (∃ s, w = Value.str s ∧ v = Value.str s ∧ hasString ks ("STRING") = true ∧
      (hasString ks ("INT") = true → interfaceToInt64 (Value.str s) = none) ∧
      (hasString ks ("FLOAT") = true → interfaceToFloat64 (Value.str s) = none)) ∨
    (∃ b, w = Value.bool b ∧ hasString ks ("BOOL") = true) := by
  simp only [castPrimitive] at h
  split at h
  · rename_i v1 heq1
    simp only [Except.ok.injEq] at h
    subst h
    by_cases hI : hasString ks ("INT") = true
    · rw [if_pos hI] at heq1
      cases hiv : interfaceToInt64 v with
      | none => rw [hiv] at heq1; simp at heq1
      | some n =>
        rw [hiv] at heq1
        simp only [Option.map_some', Option.some.injEq] at heq1
        exact Or.inl ⟨n, heq1.symm, hI⟩
    · rw [if_neg hI] at heq1
      simp at heq1
  · rename_i heq1
    split at h
    · rename_i v2 heq2
      simp only [Except.ok.injEq] at h
      subst h
      by_cases hF : hasString ks ("FLOAT") = true
      · rw [if_pos hF] at heq2
        cases hfv : interfaceToFloat64 v with
        | none => rw [hfv] at heq2; simp at heq2
        | some q =>
          rw [hfv] at heq2
          simp only [Option.map_some', Option.some.injEq] at heq2
          exact Or.inr (Or.inl ⟨q, heq2.symm, hF⟩)
      · rw [if_neg hF] at heq2
        simp at heq2
    · rename_i heq2
      split at h
      · rename_i v3 heq3
        simp only [Except.ok.injEq] at h
        subst h
        by_cases hS : hasString ks ("STRING") = true
        · rw [if_pos hS] at heq3
          cases v <;> simp at heq3
          rename_i s
          subst heq3
          refine Or.inr (Or.inr (Or.inl ⟨s, rfl, rfl, hS, ?_, ?_⟩))
          · intro hI
            rw [if_pos hI] at heq1
            cases hiv : interfaceToInt64 (Value.str s) with
            | none => rfl
            | some n => rw [hiv] at heq1; simp at heq1
          · intro hF
            rw [if_pos hF] at heq2
            cases hfv : interfaceToFloat64 (Value.str s) with
            | none => rfl
            | some q => rw [hfv] at heq2; simp at heq2
        · rw [if_neg hS] at heq3
          simp at heq3
      · rename_i heq3
        split at h
        · rename_i v4 heq4
          simp only [Except.ok.injEq] at h
          subst h
          by_cases hB : hasString ks ("BOOL") = true
          · rw [if_pos hB] at heq4
            cases v <;> simp at heq4
            rename_i b
            subst heq4
            exact Or.inr (Or.inr (Or.inr ⟨b, rfl, hB⟩))
          · rw [if_neg hB] at heq4
            simp at heq4
        · simp at h

/-- Union casting is idempotent on its canonical output, which is never
nil. -/
theorem castPrimitive_fixpoint {v w : Value} {ks : List String}
    (h : castPrimitive v ks = .ok w) :
    castPrimitive w ks = .ok w ∧ w ≠ .null := by
  rcases castPrimitive_ok_cases h with
    ⟨n, rfl, hI⟩ | ⟨q, rfl, hF⟩ | ⟨s, rfl, _, hS, g1, g2⟩ | ⟨b, rfl, hB⟩
  · exact ⟨by simp [castPrimitive, hI, interfaceToInt64], by simp⟩
  · refine ⟨?_, by simp⟩
    by_cases hI : hasString ks ("INT") = true <;>
      simp [castPrimitive, interfaceToInt64, interfaceToFloat64, hI, hF]
  · refine ⟨?_, by simp⟩
    by_cases hI : hasString ks ("INT") = true <;>
      by_cases hF : hasString ks ("FLOAT") = true
    · simp [castPrimitive, hI, hF, hS, g1 hI, g2 hF]
    · simp [castPrimitive, hI, hF, hS, g1 hI]
    · simp [castPrimitive, hI, hF, hS, g2 hF]
    · simp [castPrimitive, hI, hF, hS]
  · refine ⟨?_, by simp⟩
    by_cases hI : hasString ks ("INT") = true <;>
      by_cases hF : hasString ks ("FLOAT") = true <;>
        by_cases hS : hasString ks ("STRING") = true <;>
          simp [castPrimitive, interfaceToInt64, interfaceToFloat64, hI, hF, hS, hB]

/-- The list cast loop is idempotent, given idempotence of the element
cast. -/
theorem castListElems_idem (elemTypeStr : String)
    (IH : ∀ a b, CastValue a (.str elemTypeStr) = .ok b →
      CastValue b (.str elemTypeStr) = .ok b) :
    ∀ (xs : ValueList) (i : Nat) (out : ValueList),
      castListElems elemTypeStr xs i = .ok out →
      castListElems elemTypeStr out i = .ok out := by
  intro xs
  induction xs using valueList_inductionOn with
  | nil =>
    intro i out h
    simp only [castListElems] at h
    simp only [Except.ok.injEq] at h
    subst h
    simp [castListElems]
  | cons x tl ih =>
    intro i out h
    simp only [castListElems] at h
    cases hx : CastValue x (.str elemTypeStr) with
    | error e => rw [hx] at h; simp at h
    | ok xc =>
      rw [hx] at h
      cases hrest : castListElems elemTypeStr tl (i + 1) with
      | error e => rw [hrest] at h; simp at h
      | ok rest =>
        rw [hrest] at h
        simp only [Except.ok.injEq] at h
        subst h
        simp [castListElems, IH x xc hx, ih (i + 1) rest hrest]

/-- The generic cast loop is the accumulator fold of the reference form. -/
theorem castGenericEntries_eq_insertList (gk : String) (gv : Value) :
    ∀ (entries acc out : ValueKVs),
      castGenericEntries gk gv entries acc = .ok out ↔
        ∃ cs, genCastKVs gk gv entries = some cs ∧ out = insertList acc cs := by
  intro entries
  induction entries using valueKVs_inductionOn with
  | nil =>
    intro acc out
    simp [castGenericEntries, genCastKVs, insertList, eq_comm]
  | cons k v tl ih =>
    intro acc out
    cases hk : CastValue k (.str gk) with
    | error e => simp [castGenericEntries, genCastKVs, hk]
    | ok kc =>
      cases hv : CastValue v gv with
      | error e => simp [castGenericEntries, genCastKVs, hk, hv]
      | ok vc =>
        simp only [castGenericEntries, genCastKVs, hk, hv]
        rw [ih]
        constructor
        · rintro ⟨cs, hcs, rfl⟩
          exact ⟨.cons kc vc cs, by simp [hcs], by simp [insertList]⟩
        · rintro ⟨cs, hcs, rfl⟩
          rcases hfx : genCastKVs gk gv tl with _ | cs2
          · rw [hfx] at hcs
            simp at hcs
          · rw [hfx] at hcs
            simp only [Option.map_some', Option.some.injEq] at hcs
            exact ⟨cs2, rfl, by rw [← hcs]; simp [insertList]⟩

/-- Every pair of the reference generic cast arises as the entry-wise cast
of some input entry. -/
theorem genCastKVs_mem {gk : String} {gv : Value} :
    ∀ {entries cs : ValueKVs}, genCastKVs gk gv entries = some cs →
      ∀ p ∈ cs.toList, ∃ q ∈ entries.toList,
        CastValue q.1 (.str gk) = .ok p.1 ∧ CastValue q.2 gv = .ok p.2 := by
  intro entries
  induction entries using valueKVs_inductionOn with
  | nil =>
    intro cs h p hp
    simp only [genCastKVs, Option.some.injEq] at h
    subst h
    simp [ValueKVs.toList] at hp
  | cons k v tl ih =>
    intro cs h p hp
    simp only [genCastKVs] at h
    cases hk : CastValue k (.str gk) with
    | error e => rw [hk] at h; simp at h
    | ok kc =>
      rw [hk] at h
      cases hv : CastValue v gv with
      | error e => rw [hv] at h; simp at h
      | ok vc =>
        rw [hv] at h
        rcases hfx : genCastKVs gk gv tl with _ | cs2
        · rw [hfx] at h; simp at h
        · rw [hfx] at h
          simp only [Option.map_some', Option.some.injEq] at h
          subst h
          rcases (by simpa [ValueKVs.toList] using hp :
              p = (kc, vc) ∨ p ∈ cs2.toList) with rfl | hmem
          · exact ⟨(k, v), by simp [ValueKVs.toList], hk, hv⟩
          · obtain ⟨q, hq, h1, h2⟩ := ih hfx p hmem
            exact ⟨q, by simp [ValueKVs.toList, hq], h1, h2⟩

/-- A map write adds no entries beyond the written pair. -/
theorem mapInsert_mem_toList :
    ∀ {m : ValueKVs} {k v : Value} {p : Value × Value},
      p ∈ (mapInsert m k v).toList → p ∈ m.toList ∨ p = (k, v) := by
  intro m
  induction m using valueKVs_inductionOn with
  | nil =>
    intro k v p hp
    simp [mapInsert, ValueKVs.toList] at hp
    simp [hp]
  | cons k0 v0 tl ih =>
    intro k v p hp
    by_cases hk : k0 = k
    · simp only [mapInsert, if_pos hk] at hp
      rcases (by simpa [ValueKVs.toList] using hp :
          p = (k, v) ∨ p ∈ tl.toList) with rfl | hmem
      · simp
      · exact Or.inl (by simp [ValueKVs.toList, hmem])
    · simp only [mapInsert, if_neg hk] at hp
      rcases (by simpa [ValueKVs.toList] using hp :
          p = (k0, v0) ∨ p ∈ (mapInsert tl k v).toList) with rfl | hmem
      · exact Or.inl (by simp [ValueKVs.toList])
      · rcases ih hmem with h1 | rfl
        · exact Or.inl (by simp [ValueKVs.toList, h1])
        · simp

/-- An entry of a fold of map writes is an entry of the base map or one of
the written pairs. -/
theorem insertList_mem_toList :
    ∀ {cs acc : ValueKVs} {p : Value × Value},
      p ∈ (insertList acc cs).toList → p ∈ acc.toList ∨ p ∈ cs.toList := by
  intro cs
  induction cs using valueKVs_inductionOn with
  | nil =>
    intro acc p hp
    exact Or.inl hp
  | cons k v tl ih =>
    intro acc p hp
    rcases ih hp with h1 | hmem
    · rcases mapInsert_mem_toList h1 with h2 | rfl
      · exact Or.inl h2
      · exact Or.inr (by simp [ValueKVs.toList])
    · exact Or.inr (by simp [ValueKVs.toList, hmem])

/-- Key membership after a map write. -/
theorem mapHasKey_mapInsert {m : ValueKVs} {k v k2 : Value} :
    mapHasKey (mapInsert m k v) k2 = true ↔ k2 = k ∨ mapHasKey m k2 = true := by
  induction m using valueKVs_inductionOn with
  | nil =>
    by_cases hk : k = k2
    · simp [mapInsert, mapHasKey, mapGet, hk]
    · simp [mapInsert, mapHasKey, mapGet, hk, Ne.symm hk]
  | cons k0 v0 tl ih =>
    by_cases hk : k0 = k
    · subst hk
      by_cases hk2 : k0 = k2
      · simp [mapInsert, mapHasKey, mapGet, hk2]
      · simp [mapInsert, mapHasKey, mapGet, hk2, Ne.symm hk2]
    · by_cases hk2 : k0 = k2
      · subst hk2
        simp [mapInsert, mapHasKey, mapGet, hk]
      · simp only [mapInsert, if_neg hk, mapHasKey, mapGet, if_neg hk2]
        rw [← mapHasKey, ← mapHasKey, ih]

/-- A map write preserves pairwise distinct keys. -/
theorem keysNodupB_mapInsert {m : ValueKVs} {k v : Value}
    (h : keysNodupB m = true) : keysNodupB (mapInsert m k v) = true := by
  induction m using valueKVs_inductionOn with
  | nil => simp [mapInsert, keysNodupB, mapHasKey, mapGet]
  | cons k0 v0 tl ih =>
    simp only [keysNodupB, Bool.and_eq_true, Bool.not_eq_true'] at h
    obtain ⟨h1, h2⟩ := h
    by_cases hk : k0 = k
    · subst hk
      simp [mapInsert, keysNodupB, h1, h2]
    · simp only [mapInsert, if_neg hk, keysNodupB, Bool.and_eq_true,
        Bool.not_eq_true']
      refine ⟨?_, ih h2⟩
      rcases hm : mapHasKey (mapInsert tl k v) k0 with _ | _
      · rfl
      · exfalso
        rcases mapHasKey_mapInsert.mp hm with rfl | hmem
        · exact hk rfl
        · rw [h1] at hmem
          simp at hmem

/-- A fold of map writes preserves pairwise distinct keys. -/
theorem keysNodupB_insertList :
    ∀ {cs acc : ValueKVs}, keysNodupB acc = true →
      keysNodupB (insertList acc cs) = true := by
  intro cs
  induction cs using valueKVs_inductionOn with
  | nil => intro acc h; exact h
  | cons k v tl ih => intro acc h; exact ih (keysNodupB_mapInsert h)

/-- The reference generic cast of entry-wise fixpoints is the identity. -/
theorem genCastKVs_idem {gk : String} {gv : Value} :
    ∀ {entries : ValueKVs},
      (∀ p ∈ entries.toList, CastValue p.1 (.str gk) = .ok p.1 ∧
        CastValue p.2 gv = .ok p.2) →
      genCastKVs gk gv entries = some entries := by
  intro entries
  induction entries using valueKVs_inductionOn with
  | nil => intro _; simp [genCastKVs]
  | cons k v tl ih =>
    intro h
    obtain ⟨hk, hv⟩ := h (k, v) (by simp [ValueKVs.toList])
    dsimp only at hk hv
    simp only [genCastKVs, hk, hv]
    rw [ih (fun p hp => h p (by simp [ValueKVs.toList, hp]))]
    simp

/-- The reference fixed cast reads the value map only at the declared
fields. -/
theorem fixedCastKVs_congr :
    ∀ {schemaEntries m1 m2 : ValueKVs},
      (∀ k ∈ schemaEntries.keys, mapGet m1 k = mapGet m2 k) →
      fixedCastKVs schemaEntries m1 = fixedCastKVs schemaEntries m2 := by
  intro schemaEntries
  induction schemaEntries using valueKVs_inductionOn with
  | nil => intro m1 m2 _; simp [fixedCastKVs]
  | cons k tv tl ih =>
    intro m1 m2 h
    have hk := h k (by simp [ValueKVs.keys])
    simp only [fixedCastKVs, hk]
    rw [ih (fun k2 hk2 => h k2 (by simp [ValueKVs.keys, hk2]))]

/-- Re-applying the reference fixed cast to its own output is the identity,
given entry-wise idempotence. -/
theorem fixedCastKVs_recast :
    ∀ {schemaEntries vM cs : ValueKVs},
      keysNodupB schemaEntries = true →
      fixedCastKVs schemaEntries vM = some cs →
      (∀ p ∈ schemaEntries.toList, ∀ a b, CastValue a p.2 = .ok b →
        CastValue b p.2 = .ok b) →
      fixedCastKVs schemaEntries cs = some cs := by
  intro schemaEntries
  induction schemaEntries using valueKVs_inductionOn with
  | nil =>
    intro vM cs _ h _
    simp only [fixedCastKVs, Option.some.injEq] at h
    subst h
    simp [fixedCastKVs]
  | cons k tv tl ih =>
    intro vM cs hnd h hidem
    simp only [keysNodupB, Bool.and_eq_true, Bool.not_eq_true'] at hnd
    obtain ⟨hnk, hnd2⟩ := hnd
    cases hget : mapGet vM k with
    | none => simp [fixedCastKVs, hget] at h
    | some v =>
      cases hcast : CastValue v tv with
      | error e => simp [fixedCastKVs, hget, hcast] at h
      | ok cv =>
        simp only [fixedCastKVs, hget, hcast] at h
        rcases hfx : fixedCastKVs tl vM with _ | cs2
        · rw [hfx] at h; simp at h
        · rw [hfx] at h
          simp only [Option.map_some', Option.some.injEq] at h
          subst h
          have hcv : CastValue cv tv = .ok cv :=
            hidem (k, tv) (by simp [ValueKVs.toList]) v cv hcast
          have hcongr : fixedCastKVs tl (ValueKVs.cons k cv cs2) =
              fixedCastKVs tl cs2 := by
            refine fixedCastKVs_congr (fun k2 hk2 => ?_)
            have hne : ¬ k = k2 := by
              intro hkk
              subst hkk
              have : mapHasKey tl k = true := mapHasKey_iff_mem_keys.mpr hk2
              rw [hnk] at this
              simp at this
            simp [mapGet, if_neg hne]
          have hrest : fixedCastKVs tl cs2 = some cs2 :=
            ih hnd2 hfx
              (fun p hp a b hab => hidem p (by simp [ValueKVs.toList, hp]) a b hab)
          simp [fixedCastKVs, mapGet, hcv, hcongr, hrest]

/-- A schema that fails validation makes `CastValue` fail with that
validation error, for any value. -/
theorem castValue_validation_error {v t : Value} {e : Err}
    (hvt : ValidateValueType t = .error e) : CastValue v t = .error e := by
  cases t with
  | null => simp [CastValue, hvt]
  | int n => simp [CastValue, hvt]
  | float q => simp [CastValue, hvt]
  | bool b => simp [CastValue, hvt]
  | str s => simp [CastValue, hvt]
  | map kvs => simp [CastValue, hvt]
  | seq xs =>
    cases xs with
    | nil => simp [CastValue, hvt]
    | cons hd tl => cases hd <;> simp [CastValue, hvt]

/-- A successful cast means the schema validated. -/
theorem castValue_ok_validation {v t w : Value} (h : CastValue v t = .ok w) :
    ValidateValueType t = .ok () := by
  cases hvt : ValidateValueType t with
  | ok u => cases u; rfl
  | error e => rw [castValue_validation_error hvt] at h; simp at h

/-- Casting a map against a valid generic-map schema runs the generic
loop. -/
theorem castValue_generic_ok (gk : String) (gv : Value) (m out : ValueKVs)
    (hval : ValidateValueType (.map (.cons (.str gk) gv .nil)) = .ok ())
    (hg : isValidValueType gk = true)
    (hge : castGenericEntries gk gv m .nil = .ok out) :
    CastValue (.map m) (.map (.cons (.str gk) gv .nil)) = .ok (.map out) := by
  simp [CastValue, hval, ValidateValue, interfaceToInterfaceInterfaceMap,
    ValueKVs.length, hg, hge]

/-- A successful cast of a map against a valid generic-map schema came from
its generic loop. -/
theorem castValue_generic_inv (gk : String) (gv : Value) (m : ValueKVs)
    (w : Value)
    (hval : ValidateValueType (.map (.cons (.str gk) gv .nil)) = .ok ())
    (hg : isValidValueType gk = true)
    (h : CastValue (.map m) (.map (.cons (.str gk) gv .nil)) = .ok w) :
    ∃ out, castGenericEntries gk gv m .nil = .ok out ∧ w = .map out := by
  cases hge : castGenericEntries gk gv m .nil with
  | error e =>
    simp [CastValue, hval, ValidateValue, interfaceToInterfaceInterfaceMap,
      ValueKVs.length, hg, hge] at h
  | ok out =>
    simp [CastValue, hval, ValidateValue, interfaceToInterfaceInterfaceMap,
      ValueKVs.length, hg, hge] at h
    exact ⟨out, rfl, h.symm⟩

/-- Entries of a schema with distinct-keyed maps have distinct-keyed
components. -/
theorem schemaNodupKVs_mem :
    ∀ {kvs : ValueKVs} {p : Value × Value}, schemaNodupKVs kvs = true →
      p ∈ kvs.toList → schemaNodup p.1 = true ∧ schemaNodup p.2 = true := by
  intro kvs
  induction kvs using valueKVs_inductionOn with
  | nil => intro p _ hp; simp [ValueKVs.toList] at hp
  | cons k v tl ih =>
    intro p h hp
    simp only [schemaNodupKVs, Bool.and_eq_true] at h
    obtain ⟨⟨h1, h2⟩, h3⟩ := h
    rcases (by simpa [ValueKVs.toList] using hp :
        p = (k, v) ∨ p ∈ tl.toList) with rfl | hmem
    · exact ⟨h1, h2⟩
    · exact ih h3 hmem

/-- A null value casts to null under any valid schema (combinator form of
the nil rule, for reuse). -/
theorem castValue_null_ok {valueType : Value}
    (h : ValidateValueType valueType = .ok ()) :
    CastValue .null valueType = .ok .null := by
  cases valueType with
  | null => exact absurd h (by simp [ValidateValueType])
  | int n => exact absurd h (by simp [ValidateValueType])
  | float q => exact absurd h (by simp [ValidateValueType])
  | bool b => exact absurd h (by simp [ValidateValueType])
  | str s => simp [CastValue, ValidateValue, h]
  | map kvs => simp [CastValue, ValidateValue, h]
  | seq xs =>
    cases xs with
    | nil => exact absurd h (by simp [ValidateValueType, strSliceOf])
    | cons hd tl =>
      cases hd with
      | str s => simp [CastValue, ValidateValue, h]
      | null => exact absurd h (by simp [ValidateValueType, strSliceOf])
      | int n => exact absurd h (by simp [ValidateValueType, strSliceOf])
      | float q => exact absurd h (by simp [ValidateValueType, strSliceOf])
      | bool b => exact absurd h (by simp [ValidateValueType, strSliceOf])
      | seq ys => exact absurd h (by simp [ValidateValueType, strSliceOf])
      | map m => exact absurd h (by simp [ValidateValueType, strSliceOf])

/-- Against a valid primitive schema, a non-null cast is the union cast. -/
theorem castValue_str_inv {v w : Value} {s : String}
    (hval : ValidateValueType (.str s) = .ok ()) (hv : v ≠ .null)
    (h : CastValue v (.str s) = .ok w) :
    castPrimitive v (splitPipe s) = .ok w := by
  cases v with
  | null => exact absurd rfl hv
  | int n => simpa [CastValue, hval, ValidateValue] using h
  | float q => simpa [CastValue, hval, ValidateValue] using h
  | bool b => simpa [CastValue, hval, ValidateValue] using h
  | str s2 => simpa [CastValue, hval, ValidateValue] using h
  | seq xs => simpa [CastValue, hval, ValidateValue] using h
  | map m => simpa [CastValue, hval, ValidateValue] using h

/-- Converse direction: the union cast decides the non-null primitive
cast. -/
theorem castValue_str_of_prim {v w : Value} {s : String}
    (hval : ValidateValueType (.str s) = .ok ()) (hv : v ≠ .null)
    (hp : castPrimitive v (splitPipe s) = .ok w) :
    CastValue v (.str s) = .ok w := by
  cases v with
  | null => exact absurd rfl hv
  | int n => simpa [CastValue, hval, ValidateValue] using hp
  | float q => simpa [CastValue, hval, ValidateValue] using hp
  | bool b => simpa [CastValue, hval, ValidateValue] using hp
  | str s2 => simpa [CastValue, hval, ValidateValue] using hp
  | seq xs => simpa [CastValue, hval, ValidateValue] using hp
  | map m => simpa [CastValue, hval, ValidateValue] using hp

/-- A successful non-null cast against a valid list schema came from the
element loop on a sequence value. -/
theorem castValue_seq_inv {v w : Value} {s : String}
    (hval : ValidateValueType (.seq (.cons (.str s) .nil)) = .ok ())
    (hv : v ≠ .null)
    (h : CastValue v (.seq (.cons (.str s) .nil)) = .ok w) :
    ∃ vs cs, v = .seq vs ∧ castListElems s vs 0 = .ok cs ∧ w = .seq cs := by
  cases v with
  | null => exact absurd rfl hv
  | int n =>
    simp [CastValue, hval, ValidateValue, strSliceOf, interfaceToInterfaceSlice] at h
  | float q =>
    simp [CastValue, hval, ValidateValue, strSliceOf, interfaceToInterfaceSlice] at h
  | bool b =>
    simp [CastValue, hval, ValidateValue, strSliceOf, interfaceToInterfaceSlice] at h
  | str s2 =>
    simp [CastValue, hval, ValidateValue, strSliceOf, interfaceToInterfaceSlice] at h
  | map m =>
    simp [CastValue, hval, ValidateValue, strSliceOf, interfaceToInterfaceSlice] at h
  | seq vs =>
    cases hc : castListElems s vs 0 with
    | error e =>
      simp [CastValue, hval, ValidateValue, strSliceOf, interfaceToInterfaceSlice,
        hc] at h
    | ok cs =>
      simp only [CastValue, hval, ValidateValue, strSliceOf,
        interfaceToInterfaceSlice, hc] at h
      refine ⟨vs, cs, rfl, hc, ?_⟩
      simp at h
      exact h.symm

/-- A successful element loop decides the list cast. -/
theorem castValue_list_ok {vs cs : ValueList} {s : String}
    (hval : ValidateValueType (.seq (.cons (.str s) .nil)) = .ok ())
    (hc : castListElems s vs 0 = .ok cs) :
    CastValue (.seq vs) (.seq (.cons (.str s) .nil)) = .ok (.seq cs) := by
  simp [CastValue, hval, ValidateValue, strSliceOf, interfaceToInterfaceSlice, hc]

/-- A non-null value that casts successfully against a map schema is a
map. -/
theorem castValue_map_inv {v w : Value} {skvs : ValueKVs}
    (hval : ValidateValueType (.map skvs) = .ok ()) (hv : v ≠ .null)
    (h : CastValue v (.map skvs) = .ok w) : ∃ m, v = .map m := by
  cases v with
  | null => exact absurd rfl hv
  | map m => exact ⟨m, rfl⟩
  | int n =>
    simp [CastValue, hval, ValidateValue, interfaceToInterfaceInterfaceMap] at h
  | float q =>
    simp [CastValue, hval, ValidateValue, interfaceToInterfaceInterfaceMap] at h
  | bool b =>
    simp [CastValue, hval, ValidateValue, interfaceToInterfaceInterfaceMap] at h
  | str s2 =>
    simp [CastValue, hval, ValidateValue, interfaceToInterfaceInterfaceMap] at h
  | seq xs =>
    simp [CastValue, hval, ValidateValue, interfaceToInterfaceInterfaceMap] at h

/-- Against the empty map schema, a successful map cast returns the empty
map. -/
theorem castValue_empty_map_inv {m : ValueKVs} {w : Value}
    (h : CastValue (.map m) (.map .nil) = .ok w) : w = .map .nil := by
  by_cases hm : m.length = 0
  · simp [CastValue, ValidateValueType, validateMapEntries, hasGenericKey,
      ValidateValue, interfaceToInterfaceInterfaceMap, ValueKVs.length, hm] at h
    exact h.symm
  · simp [CastValue, ValidateValueType, validateMapEntries, hasGenericKey,
      ValidateValue, interfaceToInterfaceInterfaceMap, ValueKVs.length, hm] at h

/-- The empty map casts to itself under the empty map schema. -/
theorem castValue_empty_map_ok :
    CastValue (.map .nil) (.map .nil) = .ok (.map .nil) := by
  simp [CastValue, ValidateValueType, validateMapEntries, hasGenericKey,
    ValidateValue, interfaceToInterfaceInterfaceMap, ValueKVs.length]

/-- A successful map cast against a non-empty, non-generic map schema came
from its fixed-map loop with no undeclared key. -/
theorem castValue_fixed_inv (skvs vkvs : ValueKVs) (w : Value)
    (hval : ValidateValueType (.map skvs) = .ok ())
    (hne : skvs ≠ .nil) (hng : genericMapSchema skvs = none)
    (h : CastValue (.map vkvs) (.map skvs) = .ok w) :
    ∃ casted, castFixedEntries skvs vkvs .nil = .ok casted ∧
      findUnsupportedKey vkvs skvs = none ∧ w = .map casted := by
  cases hres : castFixedEntries skvs vkvs .nil with
  | error e =>
    rw [castValue_fixed_error skvs vkvs e hval hne hng hres] at h
    simp at h
  | ok casted =>
    cases hfind : findUnsupportedKey vkvs skvs with
    | some k =>
      rw [castValue_fixed_extra skvs vkvs casted k hval hne hng hres hfind] at h
      simp at h
    | none =>
      rw [castValue_fixed_ok skvs vkvs casted hval hne hng hres hfind] at h
      simp only [Except.ok.injEq] at h
      exact ⟨casted, rfl, rfl, h.symm⟩

/-- Inversion of the generic-map test. -/
theorem genericMapSchema_some {kvs : ValueKVs} {gk : String} {gv : Value}
    (h : genericMapSchema kvs = some (gk, gv)) :
    kvs = .cons (.str gk) gv .nil ∧ isValidValueType gk = true := by
  cases kvs with
  | nil => simp [genericMapSchema] at h
  | cons k0 v0 tl0 =>
    cases k0 with
    | str s =>
      cases tl0 with
      | nil =>
        by_cases hs : isValidValueType s = true
        · simp only [genericMapSchema, if_pos hs, Option.some.injEq,
            Prod.mk.injEq] at h
          obtain ⟨rfl, rfl⟩ := h
          exact ⟨rfl, hs⟩
        · simp [genericMapSchema, hs] at h
      | cons k1 v1 tl1 => simp [genericMapSchema] at h
    | null => simp [genericMapSchema] at h
    | int n => simp [genericMapSchema] at h
    | float q => simp [genericMapSchema] at h
    | bool b => simp [genericMapSchema] at h
    | seq xs => simp [genericMapSchema] at h
    | map m => simp [genericMapSchema] at h

/-- The fixed-map branch is idempotent, given idempotence of each declared
field cast and distinct declared keys. -/
theorem castValue_fixed_idem (skvs vkvs : ValueKVs) (w : Value)
    (hval : ValidateValueType (.map skvs) = .ok ())
    (hne : skvs ≠ .nil) (hng : genericMapSchema skvs = none)
    (hnd : keysNodupB skvs = true)
    (hidem : ∀ p ∈ skvs.toList, ∀ a b, CastValue a p.2 = .ok b →
      CastValue b p.2 = .ok b)
    (h : CastValue (.map vkvs) (.map skvs) = .ok w) :
    CastValue w (.map skvs) = .ok w := by
  obtain ⟨casted, hres, hfind, rfl⟩ := castValue_fixed_inv skvs vkvs w hval hne hng h
  obtain ⟨cs, hfx, hout⟩ := (castFixedEntries_eq_insertList vkvs skvs .nil casted).mp hres
  have hkeys : cs.keys = skvs.keys := fixedCastKVs_keys hfx
  have hcnd : keysNodupB cs = true := by
    rw [keysNodupB_iff, hkeys, ← keysNodupB_iff]
    exact hnd
  have hcs : casted = cs := by rw [hout, insertList_nil_self cs hcnd]
  subst hcs
  have hrecast : fixedCastKVs skvs casted = some casted :=
    fixedCastKVs_recast hnd hfx hidem
  have hres2 : castFixedEntries skvs casted .nil = .ok casted :=
    (castFixedEntries_eq_insertList casted skvs .nil casted).mpr
      ⟨casted, hrecast, (insertList_nil_self casted hcnd).symm⟩
  have hfind2 : findUnsupportedKey casted skvs = none := by
    rw [findUnsupportedKey_none_iff]
    intro k hk
    rw [hkeys] at hk
    exact mapHasKey_iff_mem_keys.mpr hk
  exact castValue_fixed_ok skvs casted casted hval hne hng hres2 hfind2

/-- The generic-map branch is idempotent, given idempotence of the key cast
and of the value cast. -/
theorem castValue_generic_idem (gk : String) (gv : Value) (vkvs : ValueKVs)
    (w : Value)
    (hval : ValidateValueType (.map (.cons (.str gk) gv .nil)) = .ok ())
    (hgk : isValidValueType gk = true)
    (hkeyIdem : ∀ a b, CastValue a (.str gk) = .ok b → CastValue b (.str gk) = .ok b)
    (hvalIdem : ∀ a b, CastValue a gv = .ok b → CastValue b gv = .ok b)
    (h : CastValue (.map vkvs) (.map (.cons (.str gk) gv .nil)) = .ok w) :
    CastValue w (.map (.cons (.str gk) gv .nil)) = .ok w := by
  obtain ⟨out, hge, rfl⟩ := castValue_generic_inv gk gv vkvs w hval hgk h
  obtain ⟨cs, hcs, hout⟩ := (castGenericEntries_eq_insertList gk gv vkvs .nil out).mp hge
  have hond : keysNodupB out = true := by
    rw [hout]
    exact keysNodupB_insertList (by simp [keysNodupB])
  have hfix : ∀ p ∈ out.toList, CastValue p.1 (.str gk) = .ok p.1 ∧
      CastValue p.2 gv = .ok p.2 := by
    intro p hp
    rw [hout] at hp
    rcases insertList_mem_toList hp with hacc | hmem
    · simp [ValueKVs.toList] at hacc
    · obtain ⟨q, _, h1, h2⟩ := genCastKVs_mem hcs p hmem
      exact ⟨hkeyIdem q.1 p.1 h1, hvalIdem q.2 p.2 h2⟩
  have hgen2 : genCastKVs gk gv out = some out := genCastKVs_idem hfix
  have hge2 : castGenericEntries gk gv out .nil = .ok out :=
    (castGenericEntries_eq_insertList gk gv out .nil out).mpr
      ⟨out, hgen2, (insertList_nil_self out hond).symm⟩
  exact castValue_generic_ok gk gv out out hval hgk hge2

/-- Idempotence of `CastValue`, by strong induction on the schema size. -/
theorem cast_idempotent_aux :
    ∀ (n : Nat) (t : Value), sizeOf t ≤ n → ∀ (v w : Value),
      schemaNodup t = true → CastValue v t = .ok w → CastValue w t = .ok w := by
  intro n
  induction n with
  | zero =>
    intro t ht
    exact absurd ht (by have := value_sizeOf_pos t; omega)
  | succ n ih =>
    intro t ht v w hnd h
    have hval : ValidateValueType t = .ok () := castValue_ok_validation h
    by_cases hv : v = .null
    · subst hv
      have hw : Value.null = w := by
        rw [castValue_null_ok hval] at h
        simpa using h
      subst hw
      exact castValue_null_ok hval
    · cases t with
      | null => simp [ValidateValueType] at hval
      | int k => simp [ValidateValueType] at hval
      | float q => simp [ValidateValueType] at hval
      | bool b => simp [ValidateValueType] at hval
      | str s =>
        have hp := castValue_str_inv hval hv h
        obtain ⟨hfixp, hwn⟩ := castPrimitive_fixpoint hp
        exact castValue_str_of_prim hval hwn hfixp
      | seq xs =>
        obtain ⟨s, rfl, hvs⟩ := validate_seq_ok_shape hval
        obtain ⟨vs, cs, rfl, hc, rfl⟩ := castValue_seq_inv hval hv h
        have hstr : sizeOf (Value.str s) ≤ n := by
          simp only [Value.seq.sizeOf_spec, ValueList.cons.sizeOf_spec,
            ValueList.nil.sizeOf_spec] at ht
          omega
        have ihStr : ∀ a b, CastValue a (.str s) = .ok b →
            CastValue b (.str s) = .ok b :=
          fun a b hab => ih (.str s) hstr a b rfl hab
        exact castValue_list_ok hval (castListElems_idem s ihStr vs 0 cs hc)
      | map skvs =>
        obtain ⟨m, rfl⟩ := castValue_map_inv hval hv h
        cases skvs with
        | nil =>
          rw [castValue_empty_map_inv h]
          exact castValue_empty_map_ok
        | cons k0 v0 tl0 =>
          have hnds : keysNodupB (ValueKVs.cons k0 v0 tl0) = true ∧
              schemaNodupKVs (ValueKVs.cons k0 v0 tl0) = true := by
            simpa [schemaNodup, Bool.and_eq_true] using hnd
          have hidem : ∀ p ∈ (ValueKVs.cons k0 v0 tl0).toList,
              ∀ a b, CastValue a p.2 = .ok b → CastValue b p.2 = .ok b := by
            intro p hp a b hab
            have hlt : sizeOf p.2 < sizeOf (ValueKVs.cons k0 v0 tl0) :=
              sizeOf_snd_lt_of_mem_toList hp
            have hsz : sizeOf p.2 ≤ n := by
              simp only [Value.map.sizeOf_spec] at ht
              omega
            exact ih p.2 hsz a b (schemaNodupKVs_mem hnds.2 hp).2 hab
          cases hg : genericMapSchema (ValueKVs.cons k0 v0 tl0) with
          | none =>
            exact castValue_fixed_idem (ValueKVs.cons k0 v0 tl0) m w
              hval (by simp) hg hnds.1 hidem h
          | some pr =>
            obtain ⟨gk, gv⟩ := pr
            obtain ⟨hshape, hgk⟩ := genericMapSchema_some hg
            rw [hshape] at hval hnds hidem ht h ⊢
            have hszg : sizeOf (Value.str gk) ≤ n ∧ sizeOf gv ≤ n := by
              simp only [Value.map.sizeOf_spec, ValueKVs.cons.sizeOf_spec,
                ValueKVs.nil.sizeOf_spec] at ht
              omega
            have hgvnd : schemaNodup gv = true := by
              simpa [schemaNodupKVs, schemaNodup] using hnds.2
            have hkeyIdem : ∀ a b, CastValue a (.str gk) = .ok b →
                CastValue b (.str gk) = .ok b :=
              fun a b hab => ih (.str gk) hszg.1 a b rfl hab
            have hvalIdem : ∀ a b, CastValue a gv = .ok b →
                CastValue b gv = .ok b :=
              fun a b hab => ih gv hszg.2 a b hgvnd hab
            exact castValue_generic_idem gk gv m w hval hgk hkeyIdem hvalIdem h

/-- C7: for every (value, schema) pair on which `CastValue` succeeds,
casting the returned canonical value again against the same schema succeeds
and returns the same value (idempotence of casting on canonical output);
the schema carries the Go-map invariant that each of its map literals has
distinct keys. -/
theorem cast_idempotent (t v w : Value) (hnd : schemaNodup t = true)
    (h : CastValue v t = .ok w) : CastValue w t = .ok w :=
  cast_idempotent_aux (sizeOf t) t le_rfl v w hnd h

/-- C7 witness: `"5"` cast against `INT|STRING` canonicalises to the
integer 5, and re-casting 5 is a no-op. -/
theorem cast_idempotent_witness :
    CastValue (.int 5) (.str ("INT|STRING")) = .ok (.int 5) :=
  cast_idempotent (.str ("INT|STRING")) (.str ("5")) (.int 5) (by decide)
    (by simp only [CastValue, ValidateValueType, castPrimitive]; decide)

end Cortex
